import Mathlib

/-!
# Verification of the SISL C++ codec (`samb4secure/sisl-cplusplus`)

Shallow embedding of the repository's core components, translated from the
C++ sources:

* `src/unicode_escape.cpp` — escape/unescape of SISL string literals
* `src/sisl_lexer.cpp`     — byte-level lexer
* `src/sisl_parser.cpp`    — token-level parser producing the element tree
* `src/sisl_codec.cpp`     — JSON value ↔ SISL codec (`dumps` / `loads`)
* `src/merge.cpp`          — multi-fragment merge engine
* `src/split.cpp`          — length-bounded split engine

Byte strings (`std::string`) are modelled as `List Nat`, each element a byte
value below 256.  The JSON value tree (`nlohmann::ordered_json`) is modelled
by the inductive `Val`; the floating-point variant of the C++ value tree is
outside this embedding (IEEE-754 formatting/parsing is not shallowly
embeddable), so `Val` covers null, bool, 64-bit integer, string, array and
object values, and the decoder rejects the `float` type tag.  Fallible C++
code (exceptions) is modelled with `Except Err`.

Recursions that are not structural in the C++ (the token parser and the
binary merge, whose recursion descends through evolving accumulators) take
an explicit fuel argument supplied at the call site, large enough that the
fuel is never exhausted on the inputs the theorems speak about.
-/

namespace Sisl

/-- The error categories thrown by the C++ code (`LexerError`, `ParseError`,
`EscapeError`, `CodecError`), plus `internalErr` for standard-library
exceptions that escape uncaught (e.g. `std::stoll` inside `merge.cpp`). -/
inductive Err where
  | lexErr (msg : String)
  | parseErr (msg : String)
  | escapeErr (msg : String)
  | codecErr (msg : String)
  | internalErr (msg : String)
  deriving DecidableEq, Repr

instance {ε α : Type} [DecidableEq ε] [DecidableEq α] : DecidableEq (Except ε α)
  | .ok a, .ok b =>
    match decEq a b with
    | isTrue h => isTrue (by rw [h])
    | isFalse h => isFalse (by intro hc; injection hc; contradiction)
  | .ok _, .error _ => isFalse (by intro hc; injection hc)
  | .error _, .ok _ => isFalse (by intro hc; injection hc)
  | .error a, .error b =>
    match decEq a b with
    | isTrue h => isTrue (by rw [h])
    | isFalse h => isFalse (by intro hc; injection hc; contradiction)

/-! ## Byte classification helpers (from `unicode_escape.cpp` and `sisl_lexer.cpp`) -/

/-- `is_hex_digit` from `unicode_escape.cpp`. -/
def isHexDigit (c : Nat) : Bool :=
  (48 ≤ c && c ≤ 57) || (97 ≤ c && c ≤ 102) || (65 ≤ c && c ≤ 70)

/-- `hex_value` from `unicode_escape.cpp` (returns 0 on non-hex, as the C++ does). -/
def hexValue (c : Nat) : Nat :=
  if 48 ≤ c && c ≤ 57 then c - 48
  else if 97 ≤ c && c ≤ 102 then c - 97 + 10
  else if 65 ≤ c && c ≤ 70 then c - 65 + 10
  else 0

/-- Lowercase hex digit byte for a value below 16, as produced by
`std::hex` with `std::setfill('0')` in `escape_sisl_string`. -/
def hexDigit (n : Nat) : Nat :=
  if n < 10 then 48 + n else 87 + n

/-! ## Escape codec (`unicode_escape.cpp`) -/

/-- `codepoint_to_utf8` from `unicode_escape.cpp`: encodes a code point in
UTF-8 byte patterns; only code points at or above 0x110000 are rejected
(the surrogate range falls into the three-byte branch unchecked). -/
def codepointToUtf8 (cp : Nat) : Except Err (List Nat) :=
  if cp < 0x80 then .ok [cp]
  else if cp < 0x800 then .ok [0xC0 + cp / 64, 0x80 + cp % 64]
  else if cp < 0x10000 then .ok [0xE0 + cp / 4096, 0x80 + cp / 64 % 64, 0x80 + cp % 64]
  else if cp < 0x110000 then
    .ok [0xF0 + cp / 262144, 0x80 + cp / 4096 % 64, 0x80 + cp / 64 % 64, 0x80 + cp % 64]
  else .error (.escapeErr "Invalid Unicode codepoint")

/-- Prepend a byte to the output of an escape-decoding continuation. -/
def consOut (c : Nat) : Except Err (List Nat) → Except Err (List Nat)
  | .ok r => .ok (c :: r)
  | .error e => .error e

/-- Prepend a byte list to the output of an escape-decoding continuation. -/
def appendOut (l : List Nat) : Except Err (List Nat) → Except Err (List Nat)
  | .ok r => .ok (l ++ r)
  | .error e => .error e

mutual

/-- `unescape_sisl_string` from `unicode_escape.cpp`, top-level scan: a
backslash enters the escape dispatch; a backslash that is the final byte of
the input is copied verbatim (the `pos + 1 < input.size()` guard fails, so
the `else` branch of the scanner copies the byte); other bytes pass through. -/
def unescape : List Nat → Except Err (List Nat)
  | [] => .ok []
  | c :: rest => if c = 92 then unescapeEsc rest else consOut c (unescape rest)

/-- The selector dispatch after a backslash (the `switch` of
`unescape_sisl_string`); an exhausted input here is the verbatim-backslash
case of the top-level scan. -/
def unescapeEsc : List Nat → Except Err (List Nat)
  | [] => .ok [92]
  | d :: rest =>
    if d = 34 then consOut 34 (unescape rest)
    else if d = 92 then consOut 92 (unescape rest)
    else if d = 114 then consOut 13 (unescape rest)
    else if d = 116 then consOut 9 (unescape rest)
    else if d = 110 then consOut 10 (unescape rest)
    else if d = 120 then unescapeHex2 rest
    else if d = 117 then unescapeHex4 rest
    else if d = 85 then unescapeHex8 rest
    else .error (.escapeErr "Invalid escape sequence")

/-- `\xHH`: two hex digits yielding one byte (`parse_hex` count 2). -/
def unescapeHex2 : List Nat → Except Err (List Nat)
  | h1 :: h2 :: rest =>
    if isHexDigit h1 && isHexDigit h2 then
      consOut (16 * hexValue h1 + hexValue h2) (unescape rest)
    else .error (.escapeErr "Invalid hex escape sequence")
  | _ => .error (.escapeErr "Invalid hex escape sequence")

/-- `\uHHHH`: four hex digits through `codepoint_to_utf8`. -/
def unescapeHex4 : List Nat → Except Err (List Nat)
  | h1 :: h2 :: h3 :: h4 :: rest =>
    if isHexDigit h1 && isHexDigit h2 && isHexDigit h3 && isHexDigit h4 then
      match codepointToUtf8
          (4096 * hexValue h1 + 256 * hexValue h2 + 16 * hexValue h3 + hexValue h4) with
      | .ok bs => appendOut bs (unescape rest)
      | .error e => .error e
    else .error (.escapeErr "Invalid hex escape sequence")
  | _ => .error (.escapeErr "Invalid hex escape sequence")

/-- `\UHHHHHHHH`: eight hex digits through `codepoint_to_utf8`. -/
def unescapeHex8 : List Nat → Except Err (List Nat)
  | h1 :: h2 :: h3 :: h4 :: h5 :: h6 :: h7 :: h8 :: rest =>
    if isHexDigit h1 && isHexDigit h2 && isHexDigit h3 && isHexDigit h4 &&
       isHexDigit h5 && isHexDigit h6 && isHexDigit h7 && isHexDigit h8 then
      match codepointToUtf8
          (268435456 * hexValue h1 + 16777216 * hexValue h2 + 1048576 * hexValue h3 +
           65536 * hexValue h4 + 4096 * hexValue h5 + 256 * hexValue h6 +
           16 * hexValue h7 + hexValue h8) with
      | .ok bs => appendOut bs (unescape rest)
      | .error e => .error e
    else .error (.escapeErr "Invalid hex escape sequence")
  | _ => .error (.escapeErr "Invalid hex escape sequence")

end

/-- Per-byte encoding of `escape_sisl_string` from `unicode_escape.cpp`:
the five special bytes get two-character escapes, printable ASCII passes
through, everything else becomes a lowercase `\xHH` escape. -/
def escapeByte (c : Nat) : List Nat :=
  if c = 34 then [92, 34]
  else if c = 92 then [92, 92]
  else if c = 13 then [92, 114]
  else if c = 9 then [92, 116]
  else if c = 10 then [92, 110]
  else if 32 ≤ c && c ≤ 126 then [c]
  else [92, 120, hexDigit (c / 16), hexDigit (c % 16)]

/-- `escape_sisl_string` from `unicode_escape.cpp`. -/
def escape (s : List Nat) : List Nat :=
  (s.map escapeByte).flatten

/-! ## Lexer (`sisl_lexer.cpp`)

The C++ lexer is a pull-based scanner; since tokenisation of one token never
depends on parser state, it is modelled as a one-byte-at-a-time state machine
producing the full token list (end of input plays the role of the EOF token).
Line/column bookkeeping, which only feeds error messages, is not modelled. -/

/-- The token kinds of `sisl_lexer.hpp` (EOF is the end of the token list). -/
inductive Tok where
  | lbrace
  | rbrace
  | colon
  | comma
  | bang
  | string (s : List Nat)
  | name (s : List Nat)
  deriving DecidableEq, Repr

/-- `is_whitespace` from `sisl_lexer.cpp`. -/
def isWsByte (c : Nat) : Bool :=
  c = 32 || c = 9 || c = 13 || c = 10

/-- `is_name_start` from `sisl_lexer.cpp`. -/
def isNameStart (c : Nat) : Bool :=
  c = 95 || (65 ≤ c && c ≤ 90) || (97 ≤ c && c ≤ 122)

/-- `is_name_char` from `sisl_lexer.cpp`. -/
def isNameChar (c : Nat) : Bool :=
  isNameStart c || c = 45 || c = 46 || (48 ≤ c && c ≤ 57)

/-- Prepend a token to the output of a lexing continuation. -/
def consTok (t : Tok) : Except Err (List Tok) → Except Err (List Tok)
  | .ok ts => .ok (t :: ts)
  | .error e => .error e

/-- Scanner states: top level, inside a NAME, inside a string literal,
after a backslash in a string, and consuming the up-to-`k` remaining bytes
of a `\x`/`\u`/`\U` escape inside a string (`scan_string`'s inner loops,
which stop early at a quote or at end of input). -/
inductive LexState where
  | norm
  | inName (acc : List Nat)
  | inStr (acc : List Nat)
  | inStrEsc (acc : List Nat)
  | inStrHex (acc : List Nat) (k : Nat)

/-- The lexer of `sisl_lexer.cpp` as a state machine over the input bytes.
`scan_string` keeps escape sequences raw in the lexeme (interpretation is
deferred to `unescape`); a quote terminates the literal even in the middle
of a hex escape, mirroring the `current() != '"'` guards. -/
def lexRun : LexState → List Nat → Except Err (List Tok)
  | .norm, [] => .ok []
  | .norm, c :: rest =>
    if isWsByte c then lexRun .norm rest
    else if c = 123 then consTok .lbrace (lexRun .norm rest)
    else if c = 125 then consTok .rbrace (lexRun .norm rest)
    else if c = 58 then consTok .colon (lexRun .norm rest)
    else if c = 44 then consTok .comma (lexRun .norm rest)
    else if c = 33 then consTok .bang (lexRun .norm rest)
    else if c = 34 then lexRun (.inStr []) rest
    else if isNameStart c then lexRun (.inName [c]) rest
    else .error (.lexErr "Unexpected character")
  | .inName acc, [] => .ok [.name acc]
  | .inName acc, c :: rest =>
    if isNameChar c then lexRun (.inName (acc ++ [c])) rest
    else if isWsByte c then consTok (.name acc) (lexRun .norm rest)
    else if c = 123 then consTok (.name acc) (consTok .lbrace (lexRun .norm rest))
    else if c = 125 then consTok (.name acc) (consTok .rbrace (lexRun .norm rest))
    else if c = 58 then consTok (.name acc) (consTok .colon (lexRun .norm rest))
    else if c = 44 then consTok (.name acc) (consTok .comma (lexRun .norm rest))
    else if c = 33 then consTok (.name acc) (consTok .bang (lexRun .norm rest))
    else if c = 34 then consTok (.name acc) (lexRun (.inStr []) rest)
    else .error (.lexErr "Unexpected character")
  | .inStr _, [] => .error (.lexErr "Unterminated string")
  | .inStr acc, c :: rest =>
    if c = 34 then consTok (.string acc) (lexRun .norm rest)
    else if c = 92 then lexRun (.inStrEsc acc) rest
    else lexRun (.inStr (acc ++ [c])) rest
  | .inStrEsc _, [] => .error (.lexErr "Unexpected end of input in escape sequence")
  | .inStrEsc acc, c :: rest =>
    if c = 120 then lexRun (.inStrHex (acc ++ [92, c]) 2) rest
    else if c = 117 then lexRun (.inStrHex (acc ++ [92, c]) 4) rest
    else if c = 85 then lexRun (.inStrHex (acc ++ [92, c]) 8) rest
    else lexRun (.inStr (acc ++ [92, c])) rest
  | .inStrHex _ _, [] => .error (.lexErr "Unterminated string")
  | .inStrHex acc k, c :: rest =>
    if c = 34 then consTok (.string acc) (lexRun .norm rest)
    else if k ≤ 1 then lexRun (.inStr (acc ++ [c])) rest
    else lexRun (.inStrHex (acc ++ [c]) (k - 1)) rest

/-- Tokenise a full input (the `Lexer` run to EOF). -/
def lex (s : List Nat) : Except Err (List Tok) :=
  lexRun .norm s

/-! ## The value tree (`nlohmann::ordered_json` as used by the codec)

Insertion-ordered objects are association lists; the float variant is not
embedded (see the file header). -/

/-- The JSON-equivalent value tree. -/
inductive Val where
  | vnull
  | vbool (b : Bool)
  | vint (i : Int)
  | vstr (s : List Nat)
  | vlist (vs : List Val)
  | vobj (kvs : List (List Nat × Val))
  deriving Repr

mutual

def Val.beq : Val → Val → Bool
  | .vnull, .vnull => true
  | .vbool a, .vbool b => a == b
  | .vint a, .vint b => a == b
  | .vstr a, .vstr b => a == b
  | .vlist a, .vlist b => Val.beqList a b
  | .vobj a, .vobj b => Val.beqObj a b
  | _, _ => false

def Val.beqList : List Val → List Val → Bool
  | [], [] => true
  | a :: as, b :: bs => Val.beq a b && Val.beqList as bs
  | _, _ => false

def Val.beqObj : List (List Nat × Val) → List (List Nat × Val) → Bool
  | [], [] => true
  | (k, a) :: as, (l, b) :: bs => k == l && Val.beq a b && Val.beqObj as bs
  | _, _ => false

end

mutual

def Val.beq_iff : ∀ a b : Val, Val.beq a b = true ↔ a = b
  | .vnull, b => by cases b <;> simp [Val.beq]
  | .vbool _, b => by cases b <;> simp [Val.beq]
  | .vint _, b => by cases b <;> simp [Val.beq]
  | .vstr _, b => by cases b <;> simp [Val.beq]
  | .vlist x, b => by
      cases b <;> simp [Val.beq]
      exact Val.beqList_iff x _
  | .vobj x, b => by
      cases b <;> simp [Val.beq]
      exact Val.beqObj_iff x _

def Val.beqList_iff : ∀ a b : List Val, Val.beqList a b = true ↔ a = b
  | [], [] => by simp [Val.beqList]
  | [], _ :: _ => by simp [Val.beqList]
  | _ :: _, [] => by simp [Val.beqList]
  | a :: as, b :: bs => by
    simp [Val.beqList, Val.beq_iff a b, Val.beqList_iff as bs]

def Val.beqObj_iff : ∀ a b : List (List Nat × Val), Val.beqObj a b = true ↔ a = b
  | [], [] => by simp [Val.beqObj]
  | [], _ :: _ => by simp [Val.beqObj]
  | _ :: _, [] => by simp [Val.beqObj]
  | (k, a) :: as, (l, b) :: bs => by
    simp [Val.beqObj, Val.beq_iff a b, Val.beqObj_iff as bs, and_assoc]

end

instance : DecidableEq Val := fun a b =>
  decidable_of_iff (Val.beq a b = true) (Val.beq_iff a b)

/-- Byte list of an ASCII string literal (notation convenience for the model). -/
def bytes (s : String) : List Nat :=
  s.toList.map Char.toNat

/-! ## Decimal formatting (`std::to_string`) -/

/-- Little-endian decimal digits of `n`, with fuel (`n + 1` always suffices). -/
def natDigitsLE : Nat → Nat → List Nat
  | 0, _ => []
  | fuel + 1, n => if n = 0 then [] else n % 10 :: natDigitsLE fuel (n / 10)

/-- Decimal digit bytes of a natural number, as `std::to_string` prints it. -/
def natDec (n : Nat) : List Nat :=
  if n = 0 then [48] else ((natDigitsLE (n + 1) n).map (· + 48)).reverse

/-- Decimal digit bytes of an integer, as `std::to_string(int64_t)` prints it. -/
def intDec (i : Int) : List Nat :=
  if i < 0 then 45 :: natDec (-i).toNat else natDec i.toNat

/-! ## Encoder (`json_to_sisl` / `get_type_and_value` in `sisl_codec.cpp`) -/

mutual

/-- `encode_value` from `sisl_codec.cpp` with `get_type_and_value` inlined
(one function per value producing `"!" + type + " " + value`, where the value
production is a quoted string literal or a braced grouping). -/
def encValue : Val → List Nat
  | .vnull => 33 :: bytes "null" ++ 32 :: [34, 34]
  | .vbool b => 33 :: bytes "bool" ++ 32 :: 34 :: bytes (if b then "true" else "false") ++ [34]
  | .vint i => 33 :: bytes "int" ++ 32 :: 34 :: intDec i ++ [34]
  | .vstr s => 33 :: bytes "str" ++ 32 :: 34 :: escape s ++ [34]
  | .vlist vs => 33 :: bytes "list" ++ 32 :: 123 :: encListItems 0 vs ++ [125]
  | .vobj kvs => 33 :: bytes "obj" ++ 32 :: 123 :: encObjEntries kvs ++ [125]

/-- The `", "`-joined `key: !type value` entries of an object grouping. -/
def encObjEntries : List (List Nat × Val) → List Nat
  | [] => []
  | [(k, v)] => k ++ 58 :: 32 :: encValue v
  | (k, v) :: rest => k ++ 58 :: 32 :: encValue v ++ 44 :: 32 :: encObjEntries rest

/-- The `", "`-joined `_i: !type value` entries of a list grouping. -/
def encListItems (idx : Nat) : List Val → List Nat
  | [] => []
  | [v] => 95 :: natDec idx ++ 58 :: 32 :: encValue v
  | v :: rest => 95 :: natDec idx ++ 58 :: 32 :: encValue v ++ 44 :: 32 :: encListItems (idx + 1) rest

end

/-- `json_to_sisl` (= `dumps`) from `sisl_codec.cpp`: the top-level value
must be an object; its entries are joined by `", "` inside one brace pair. -/
def dumps : Val → Except Err (List Nat)
  | .vobj kvs => .ok (123 :: encObjEntries kvs ++ [125])
  | _ => .error (.codecErr "Top-level SISL must be an object")

/-! ## Element tree and parser (`sisl_parser.cpp`)

The parser's recursion descends through the token list, which is not a
structural descent, so the model takes a fuel argument; `parse` supplies
fuel that the round-trip development proves sufficient on encoder output. -/

mutual

/-- A string literal payload (raw lexeme) or a nested grouping (`Value`). -/
inductive SVal where
  | str (content : List Nat)
  | grp (elems : List SElem)

/-- An `Element`: name, type tag, payload. -/
inductive SElem where
  | mk (name : List Nat) (type : List Nat) (val : SVal)

end

/-- The `name` field of an element. -/
def SElem.name : SElem → List Nat
  | .mk n _ _ => n

/-- The `type` field of an element. -/
def SElem.type : SElem → List Nat
  | .mk _ t _ => t

/-- The `value` field of an element. -/
def SElem.val : SElem → SVal
  | .mk _ _ v => v

mutual

/-- `Parser::parse_grouping`: `'{'`, optional elements separated by commas
(with a trailing comma permitted), `'}'`.  Returns the grouping's elements
and the unconsumed tokens. -/
def parseGrouping : Nat → List Tok → Except Err (List SElem × List Tok)
  | 0, _ => .error (.parseErr "out of fuel")
  | fuel + 1, toks =>
    match toks with
    | .lbrace :: rest =>
      match rest with
      | .rbrace :: rest' => .ok ([], rest')
      | _ => parseElems fuel rest
    | _ => .error (.parseErr "Expected grouping")

/-- The element/comma loop of `parse_grouping` after the first `'{'`
(non-empty groupings), up to and including the closing `'}'`. -/
def parseElems : Nat → List Tok → Except Err (List SElem × List Tok)
  | 0, _ => .error (.parseErr "out of fuel")
  | fuel + 1, toks => do
    let (e, rest) ← parseElement fuel toks
    match rest with
    | .comma :: .rbrace :: rest' => .ok ([e], rest')
    | .comma :: rest' => do
      let (es, r) ← parseElems fuel rest'
      .ok (e :: es, r)
    | .rbrace :: rest' => .ok ([e], rest')
    | _ => .error (.parseErr "Expected closing brace")

/-- `Parser::parse_element`: `NAME ':' '!' NAME value`. -/
def parseElement : Nat → List Tok → Except Err (SElem × List Tok)
  | 0, _ => .error (.parseErr "out of fuel")
  | fuel + 1, toks =>
    match toks with
    | .name n :: .colon :: .bang :: .name ty :: rest => do
      let (v, r) ← parseValue fuel rest
      .ok (.mk n ty v, r)
    | .name _ :: .colon :: .bang :: _ => .error (.parseErr "Expected type name")
    | .name _ :: .colon :: _ => .error (.parseErr "Expected bang")
    | .name _ :: _ => .error (.parseErr "Expected colon")
    | _ => .error (.parseErr "Expected element name")

/-- `Parser::parse_value`: a STRING token or a nested grouping. -/
def parseValue : Nat → List Tok → Except Err (SVal × List Tok)
  | 0, _ => .error (.parseErr "out of fuel")
  | fuel + 1, toks =>
    match toks with
    | .string s :: rest => .ok (.str s, rest)
    | .lbrace :: _ => do
      let (g, r) ← parseGrouping fuel toks
      .ok (.grp g, r)
    | _ => .error (.parseErr "Expected string or grouping")

end

/-- `Parser::parse`: lex, parse the outer grouping, require end of input.
The fuel `2 * length + 2` is an artifact of the embedding; it is generous
enough never to run out (each parser step consumes tokens at least half as
fast as it consumes fuel). -/
def parse (s : List Nat) : Except Err (List SElem) := do
  let toks ← lex s
  let (g, rest) ← parseGrouping (2 * toks.length + 2) toks
  match rest with
  | [] => .ok g
  | _ => .error (.parseErr "Unexpected token after grouping")

/-! ## C string-to-number conversions (`std::stoll` / `std::stoull`)

`std::stoll(s)` / `std::stoull(s)` follow `strtoll`/`strtoull` with base 10:
skip C-locale whitespace, accept one optional `+`/`-`, then require at least
one decimal digit; further characters are ignored.  `stoll` rejects values
outside int64; `stoull` wraps negated values modulo 2^64 and rejects digit
runs exceeding uint64. -/

/-- C-locale `isspace`. -/
def isCSpace (c : Nat) : Bool :=
  c = 32 || c = 9 || c = 10 || c = 11 || c = 12 || c = 13

/-- Decimal digit test. -/
def isDigitByte (c : Nat) : Bool :=
  48 ≤ c && c ≤ 57

/-- Numeric value of a decimal digit run (most significant first). -/
def digitsVal (ds : List Nat) : Nat :=
  ds.foldl (fun acc d => 10 * acc + (d - 48)) 0

/-- Strip one optional `+`/`-` sign, returning (negative?, rest). -/
def stripSign : List Nat → (Bool × List Nat)
  | [] => (false, [])
  | c :: rest =>
    if c = 43 then (false, rest)
    else if c = 45 then (true, rest)
    else (false, c :: rest)

/-- `std::stoll` (base 10): the parsed `long long`, or an error when no
digits are present or the value falls outside `[-2^63, 2^63)`. -/
def stoll (s : List Nat) : Except Unit Int :=
  let t := s.dropWhile isCSpace
  match stripSign t with
  | (neg, t2) =>
    let ds := t2.takeWhile isDigitByte
    if ds.isEmpty then .error ()
    else
      let v : Int := (digitsVal ds : Nat)
      let v := if neg then -v else v
      if v < -(2 ^ 63) || 2 ^ 63 - 1 < v then .error () else .ok v

/-- `std::stoull` (base 10): the parsed `unsigned long long` (a negated
value wraps modulo 2^64), or an error when no digits are present or the
digit run exceeds uint64. -/
def stoull (s : List Nat) : Except Unit Nat :=
  let t := s.dropWhile isCSpace
  match stripSign t with
  | (neg, t2) =>
    let ds := t2.takeWhile isDigitByte
    if ds.isEmpty then .error ()
    else if 2 ^ 64 - 1 < digitsVal ds then .error ()
    else .ok (if neg then (2 ^ 64 - digitsVal ds) % 2 ^ 64 else digitsVal ds)

/-! ## Decoder (`sisl_codec.cpp`, decode side)

`nlohmann::ordered_json`'s `obj[key] = v` keeps the position of an existing
key and replaces its value, and appends unknown keys; `upsert` models it.
The C++ sorts list items with `std::sort` (unstable; the order of items with
equal indices is unspecified); the model uses a stable insertion sort, which
agrees with the C++ whenever indices are distinct. -/

/-- `ordered_json::operator[]` followed by assignment: replace the value at
the first occurrence of the key, keeping its position, else append. -/
def upsert : List (List Nat × Val) → List Nat → Val → List (List Nat × Val)
  | [], k, v => [(k, v)]
  | (k', v') :: rest, k, v =>
    if k' = k then (k', v) :: rest else (k', v') :: upsert rest k v

/-- Insert an indexed item after all items with an index at most its own. -/
def insertSorted : List (Nat × Val) → (Nat × Val) → List (Nat × Val)
  | [], p => [p]
  | q :: rest, p => if q.1 ≤ p.1 then q :: insertSorted rest p else p :: q :: rest

/-- Sort indexed items ascending by index (stable insertion sort). -/
def sortByIndex (l : List (Nat × Val)) : List (Nat × Val) :=
  l.foldl insertSorted []

/-- The dense-array construction of `decode_grouping_value`'s `list` case:
walk the sorted items with an `expected` counter, padding gaps with nulls. -/
def fillList (expected : Nat) : List (Nat × Val) → List Val
  | [] => []
  | (i, v) :: rest => List.replicate (i - expected) .vnull ++ v :: fillList (max expected i + 1) rest

/-- `decode_string_value` from `sisl_codec.cpp`.  The `float` tag is outside
this embedding (it would require IEEE-754 `std::stod`); the model rejects it,
and no theorem below touches a `float`-tagged element. -/
def decodeStringValue (ty : List Nat) (raw : List Nat) : Except Err Val := do
  let value ← unescape raw
  if ty = bytes "null" then
    if value.isEmpty then .ok .vnull
    else .error (.codecErr "null value must be empty string")
  else if ty = bytes "bool" then
    if value = bytes "true" then .ok (.vbool true)
    else if value = bytes "false" then .ok (.vbool false)
    else .error (.codecErr "bool value must be true or false")
  else if ty = bytes "int" then
    match stoll value with
    | .ok i => .ok (.vint i)
    | .error _ => .error (.codecErr "Invalid integer value")
  else if ty = bytes "float" then .error (.codecErr "float payload outside this model")
  else if ty = bytes "str" then .ok (.vstr value)
  else .error (.codecErr "Unknown type for string value")

mutual

/-- `decode_element` from `sisl_codec.cpp`. -/
def decodeElement : SElem → Except Err Val
  | .mk _ ty (.str content) => decodeStringValue ty content
  | .mk _ ty (.grp g) =>
    if ty = bytes "obj" then do
      let kvs ← decodeObjEntries g []
      .ok (.vobj kvs)
    else if ty = bytes "list" then do
      let items ← decodeListItems g
      .ok (.vlist (fillList 0 (sortByIndex items)))
    else .error (.codecErr "Unknown type for grouping value")

/-- The `obj` branch of `decode_grouping_value`: decode each child in order
and store it under its name with `obj[name] = value`. -/
def decodeObjEntries : List SElem → List (List Nat × Val) → Except Err (List (List Nat × Val))
  | [], acc => .ok acc
  | e :: rest, acc => do
    let v ← decodeElement e
    decodeObjEntries rest (upsert acc e.name v)

/-- The item collection of `decode_grouping_value`'s `list` branch: each
child's name must be `_` followed by a `std::stoull`-parseable index. -/
def decodeListItems : List SElem → Except Err (List (Nat × Val))
  | [] => .ok []
  | e :: rest =>
    match e.name with
    | 95 :: idxBytes =>
      match stoull idxBytes with
      | .ok idx => do
        let v ← decodeElement e
        let items ← decodeListItems rest
        .ok ((idx, v) :: items)
      | .error _ => .error (.codecErr "Invalid list index")
    | _ => .error (.codecErr "List element name must start with underscore")

end

/-- `sisl_to_json` from `sisl_codec.cpp`: the outer grouping's children
become the entries of the top-level object. -/
def sislToJson (g : List SElem) : Except Err Val := do
  let kvs ← decodeObjEntries g []
  .ok (.vobj kvs)

/-- `loads` from `sisl_codec.cpp`: parse, then convert to a value. -/
def loads (s : List Nat) : Except Err Val := do
  let g ← parse s
  sislToJson g

/-! ## Merge engine (`merge.cpp`)

`MergeableValue` keeps objects as insertion-ordered entry lists and lists as
sparse `std::map`s from index to node, modelled by index-sorted association
lists.  `from_element`'s scalar conversions are *not* wrapped in try/catch in
the C++ (a `std::stoll`/`std::stoull` failure escapes as a generic exception,
not a `CodecError`); `Err.internalErr` models such escaping exceptions. -/

/-- `MergeableValue` from `merge.cpp`. -/
inductive MV where
  | mobj (entries : List (List Nat × MV))
  | mlist (entries : List (Nat × MV))
  | mprim (v : Val)

/-- Insert-or-replace into a `std::map` modelled as an index-sorted list. -/
def mapInsert : List (Nat × MV) → Nat → MV → List (Nat × MV)
  | [], k, v => [(k, v)]
  | (k', v') :: rest, k, v =>
    if k < k' then (k, v) :: (k', v') :: rest
    else if k = k' then (k, v) :: rest
    else (k', v') :: mapInsert rest k v

/-- Look up an index in a `std::map` modelled as a sorted list. -/
def mapFind : List (Nat × MV) → Nat → Option MV
  | [], _ => none
  | (k', v') :: rest, k => if k' = k then some v' else mapFind rest k

/-- First-occurrence lookup in an object's entry list (`std::find_if`). -/
def objFind : List (List Nat × MV) → List Nat → Option MV
  | [], _ => none
  | (k', v') :: rest, k => if k' = k then some v' else objFind rest k

/-- Replace the value at the first occurrence of a key, keeping its position. -/
def objReplace : List (List Nat × MV) → List Nat → MV → List (List Nat × MV)
  | [], _, _ => []
  | (k', v') :: rest, k, v =>
    if k' = k then (k', v) :: rest else (k', v') :: objReplace rest k v

mutual

/-- `from_element` from `merge.cpp`.  A `bool` payload is compared against
`"true"` with no validation; an `int` payload goes through an *uncaught*
`std::stoll`; `null` ignores its payload entirely.  The `float` tag is
outside this embedding, as in the decoder. -/
def fromElement : SElem → Except Err MV
  | .mk _ ty (.str content) => do
    let value ← unescape content
    if ty = bytes "null" then .ok (.mprim .vnull)
    else if ty = bytes "bool" then .ok (.mprim (.vbool (value = bytes "true")))
    else if ty = bytes "int" then
      match stoll value with
      | .ok i => .ok (.mprim (.vint i))
      | .error _ => .error (.internalErr "stoll out of range or no digits")
    else if ty = bytes "float" then .error (.codecErr "float payload outside this model")
    else if ty = bytes "str" then .ok (.mprim (.vstr value))
    else .error (.codecErr "Unknown type")
  | .mk _ ty (.grp g) =>
    if ty = bytes "obj" then do
      let entries ← fromObjElems g
      .ok (.mobj entries)
    else if ty = bytes "list" then do
      let entries ← fromListElems g
      .ok (.mlist entries)
    else .error (.codecErr "Unknown grouping type")

/-- The `obj` branch of `from_element`: children in order, names kept
(duplicate names stay as distinct entries here). -/
def fromObjElems : List SElem → Except Err (List (List Nat × MV))
  | [] => .ok []
  | e :: rest => do
    let m ← fromElement e
    let ms ← fromObjElems rest
    .ok ((e.name, m) :: ms)

/-- The `list` branch of `from_element`: `_N` names parsed by an uncaught
`std::stoull`, inserted into the index map (a later duplicate index wins). -/
def fromListElems : List SElem → Except Err (List (Nat × MV))
  | [] => .ok []
  | e :: rest =>
    match e.name with
    | 95 :: idxBytes =>
      match stoull idxBytes with
      | .ok idx => do
        let m ← fromElement e
        let ms ← fromListElems rest
        .ok (mapInsert ms idx m)
      | .error _ => .error (.internalErr "stoull out of range or no digits")
    | _ => .error (.codecErr "Invalid list element name")

end

/-- `from_grouping_as_object` from `merge.cpp`: the outer grouping's
children become an object node's entries. -/
def fromGroupingAsObject (g : List SElem) : Except Err MV := do
  let entries ← fromObjElems g
  .ok (.mobj entries)

mutual

/-- `merge_values` from `merge.cpp`: kind mismatch is a type conflict;
objects merge entry-wise with positions kept; lists merge index-wise;
for primitives the right value overwrites the left unconditionally. -/
def mergeValues : MV → MV → Except Err MV
  | .mobj as, .mobj bs => do
    let entries ← mergeObjInto as bs
    .ok (.mobj entries)
  | .mlist as, .mlist bs => do
    let entries ← mergeListInto as bs
    .ok (.mlist entries)
  | .mprim _, .mprim q => .ok (.mprim q)
  | _, _ => .error (.codecErr "Type conflict during merge")

/-- Fold `b`'s object entries into the accumulated result: existing keys
merge recursively in place, new keys append. -/
def mergeObjInto (acc : List (List Nat × MV)) : List (List Nat × MV) → Except Err (List (List Nat × MV))
  | [] => .ok acc
  | (k, bv) :: rest =>
    match objFind acc k with
    | some av => do
      let m ← mergeValues av bv
      mergeObjInto (objReplace acc k m) rest
    | none => mergeObjInto (acc ++ [(k, bv)]) rest

/-- Fold `b`'s list entries into the accumulated result: common indices
merge recursively, fresh indices are inserted. -/
def mergeListInto (acc : List (Nat × MV)) : List (Nat × MV) → Except Err (List (Nat × MV))
  | [] => .ok acc
  | (idx, bv) :: rest =>
    match mapFind acc idx with
    | some av => do
      let m ← mergeValues av bv
      mergeListInto (mapInsert acc idx m) rest
    | none => mergeListInto (mapInsert acc idx bv) rest

end

mutual

/-- `to_json` from `merge.cpp`: objects rebuild with `obj[key] = …`
(an upsert, so duplicate entry names collapse, last value winning); sparse
lists become dense arrays padded with nulls up to the maximum index. -/
def toJson : MV → Val
  | .mobj entries => .vobj (toJsonObj entries [])
  | .mlist entries => .vlist (toJsonList 0 entries)
  | .mprim v => v

/-- The object rebuild loop of `to_json`. -/
def toJsonObj : List (List Nat × MV) → List (List Nat × Val) → List (List Nat × Val)
  | [], acc => acc
  | (k, m) :: rest, acc => toJsonObj rest (upsert acc k (toJson m))

/-- The dense-array rebuild of `to_json` over the index-sorted entries
(equivalent to the C++ loop from 0 to the maximum index with map lookups). -/
def toJsonList (expected : Nat) : List (Nat × MV) → List Val
  | [] => []
  | (i, m) :: rest => List.replicate (i - expected) .vnull ++ toJson m :: toJsonList (max expected i + 1) rest

end

/-- The fold of `merge_sisl_strings` over the strings after the first. -/
def mergeLoop (acc : MV) : List (List Nat) → Except Err MV
  | [] => .ok acc
  | s :: rest => do
    let g ← parse s
    let p ← fromGroupingAsObject g
    let acc' ← mergeValues acc p
    mergeLoop acc' rest

/-- `merge_sisl_strings` from `merge.cpp`: an empty input list yields the
empty object; otherwise parse each string, fold `merge_values` left to
right, and finalise with `to_json`. -/
def mergeSislStrings : List (List Nat) → Except Err Val
  | [] => .ok (.vobj [])
  | s :: rest => do
    let g ← parse s
    let first ← fromGroupingAsObject g
    let merged ← mergeLoop first rest
    .ok (toJson merged)

/-! ## Split engine (`split.cpp`) -/

/-- A path component: an object key or a list index. -/
inductive PathComp where
  | key (k : List Nat)
  | index (i : Nat)
  deriving DecidableEq, Repr

mutual

/-- `collect_leaves` from `split.cpp`: pre-order walk collecting every
primitive leaf with its path from the root (objects in insertion order,
lists in position order). -/
def collectLeaves (path : List PathComp) : Val → List (List PathComp × Val)
  | .vobj kvs => collectLeavesObj path kvs
  | .vlist vs => collectLeavesList path 0 vs
  | v => [(path, v)]

/-- The object branch of `collect_leaves`. -/
def collectLeavesObj (path : List PathComp) : List (List Nat × Val) → List (List PathComp × Val)
  | [] => []
  | (k, v) :: rest => collectLeaves (path ++ [.key k]) v ++ collectLeavesObj path rest

/-- The array branch of `collect_leaves`. -/
def collectLeavesList (path : List PathComp) (idx : Nat) : List Val → List (List PathComp × Val)
  | [] => []
  | v :: rest => collectLeaves (path ++ [.index idx]) v ++ collectLeavesList path (idx + 1) rest

end

/-- `build_fragment` from `split.cpp`: wrap the leaf value from the inside
out along its path; both object keys and list indices produce single-entry
*objects* (a list index becomes the object key `_<i>`). -/
def buildFragment (path : List PathComp) (v : Val) : Val :=
  path.foldr
    (fun comp cur =>
      match comp with
      | .key k => Val.vobj [(k, cur)]
      | .index i => Val.vobj [(95 :: natDec i, cur)])
    v

/-- Key membership in an object's entries (`json::contains`). -/
def containsKey (kvs : List (List Nat × Val)) (k : List Nat) : Bool :=
  kvs.any (fun kv => kv.1 = k)

/-- The entries of a fragment: `split_dumps` iterates a fragment with
`begin()/end()`, which requires an object (iterating any other json value
with `it.key()` throws a non-`CodecError` exception). -/
def fragEntries : Val → Except Err (List (List Nat × Val))
  | .vobj kvs => .ok kvs
  | _ => .error (.internalErr "fragment iteration over non-object")

/-- The tentative shallow merge of `split_dumps`'s packing loop: walk the
incoming fragment's entries and append each into `test_combined`; on the
first key already present, `break` out of the loop with the accumulator as
built so far. -/
def addFragEntries (tc : List (List Nat × Val)) : List (List Nat × Val) → List (List Nat × Val)
  | [] => tc
  | (k, v) :: rest =>
    if containsKey tc k then tc else addFragEntries (tc ++ [(k, v)]) rest

/-- Fragment construction of `split_dumps` (step 3): encode each leaf
fragment, failing if a single fragment alone exceeds the budget. -/
def buildAllFragments (maxLength : Nat) : List (List PathComp × Val) → Except Err (List (Val × List Nat))
  | [] => .ok []
  | (path, leaf) :: rest => do
    let frag := buildFragment path leaf
    let encoded ← dumps frag
    if maxLength < encoded.length then
      .error (.codecErr "max-length too small to encode any fragment")
    else do
      let out ← buildAllFragments maxLength rest
      .ok ((frag, encoded) :: out)

/-- The greedy packing loop of `split_dumps` (step 4): try to shallow-merge
the next fragment into the accumulator and re-encode; accept the tentative
accumulator whenever its encoding fits the budget (note that after a key
collision the tentative accumulator is the unchanged `combined`, whose
encoding always fits, so the colliding fragment is accepted-as-noop and
dropped); otherwise emit the current encoding and restart the accumulator
from the incoming fragment. -/
def packLoop (maxLength : Nat) (combined : List (List Nat × Val)) (curEnc : List Nat) :
    List (Val × List Nat) → Except Err (List (List Nat))
  | [] => .ok [curEnc]
  | (frag, fragEnc) :: rest => do
    let fes ← fragEntries frag
    let tc := addFragEntries combined fes
    let te := 123 :: encObjEntries tc ++ [125]
    if te.length ≤ maxLength then packLoop maxLength tc te rest
    else do
      let out ← packLoop maxLength fes fragEnc rest
      .ok (curEnc :: out)

/-- `split_dumps` from `split.cpp`: fast path when the full encoding fits;
otherwise collect leaves (an input with no primitive leaf yields the single
string `"{}"`), build the per-leaf fragments, and greedily pack them. -/
def splitDumps (j : Val) (maxLength : Nat) : Except Err (List (List Nat)) := do
  let full ← dumps j
  if full.length ≤ maxLength then .ok []
  else
    let leaves := collectLeaves [] j
    match leaves with
    | [] => .ok [[123, 125]]
    | _ => do
      let fragments ← buildAllFragments maxLength leaves
      match fragments with
      | [] => .ok []
      | (frag, fragEnc) :: rest => do
        let fes ← fragEntries frag
        packLoop maxLength fes fragEnc rest

/-! ## Concrete values used by the split/merge analysis -/

/-- `{"a": {"x": 1, "y": 2}}` — two leaves below one top-level key, so its
two single-leaf fragments share the top-level key `a`. -/
def vColl : Val :=
  .vobj [(bytes "a", .vobj [(bytes "x", .vint 1), (bytes "y", .vint 2)])]

/-! ## Specification-side helpers for the duplicate-key characterisation (C9) -/

/-- Decode every element of a grouping in order, keeping (name, value) pairs
with duplicates intact (the reference decomposition for C9). -/
def decodeAllPairs : List SElem → Except Err (List (List Nat × Val))
  | [] => .ok []
  | e :: rest => do
    let v ← decodeElement e
    let ps ← decodeAllPairs rest
    .ok ((e.name, v) :: ps)

/-- The last value carried by key `k` among `first :: rest`. -/
def lastValueFor (k : List Nat) (first : Val) (rest : List (List Nat × Val)) : Val :=
  (rest.filter (fun p => p.1 = k)).foldl (fun _ p => p.2) first

/-- Collapse duplicate keys: keys in first-occurrence order, each carrying
the value of its last occurrence (`seen` are the keys already emitted). -/
def collapseAux (seen : List (List Nat)) : List (List Nat × Val) → List (List Nat × Val)
  | [] => []
  | (k, v) :: rest =>
    if k ∈ seen then collapseAux seen rest
    else (k, lastValueFor k v rest) :: collapseAux (k :: seen) rest

/-- Collapse a (name, value) pair list: one entry per name at the position
of the name's first occurrence, holding the last occurrence's value. -/
def collapse (ps : List (List Nat × Val)) : List (List Nat × Val) :=
  collapseAux [] ps

/-- Fold decoded pairs through `obj[name] = value` (the decoder's loop shape). -/
def upsertFold (acc : List (List Nat × Val)) (ps : List (List Nat × Val)) : List (List Nat × Val) :=
  ps.foldl (fun a p => upsert a p.1 p.2) acc

/-- Update every accumulator entry to the last value its key takes in `ps`. -/
def updateAll (acc : List (List Nat × Val)) (ps : List (List Nat × Val)) : List (List Nat × Val) :=
  acc.map (fun p => (p.1, lastValueFor p.1 p.2 ps))

/-- The encoding a single-leaf fragment gets in step 3 of `split_dumps`
(statement-side helper; on the values the theorems quantify over the
`dumps` call never fails). -/
def fragEnc (pf : List PathComp × Val) : List Nat :=
  match dumps (buildFragment pf.1 pf.2) with
  | .ok e => e
  | .error _ => []

/-! ## Specification-side helpers for the value round-trip (C2)

`validName`/`validVal` delimit the domain on which the encoder's output can
be decoded back: object keys must be SISL names (the encoder emits keys
verbatim and unquoted), keys are unique within one object (the value tree's
own invariant), integers fit int64 (`Int(i)` of the data model), string
bytes are bytes, and a list is indexable by `size_t`. -/

/-- The NAME grammar of the lexer: `[A-Za-z_][A-Za-z0-9_.\x2d]*`. -/
def validName (s : List Nat) : Bool :=
  match s with
  | [] => false
  | c :: rest => isNameStart c && rest.all isNameChar

mutual

/-- Well-formedness of a value for the round-trip theorem. -/
def validVal : Val → Bool
  | .vnull => true
  | .vbool _ => true
  | .vint i => decide (-(2 ^ 63) ≤ i) && decide (i ≤ 2 ^ 63 - 1)
  | .vstr s => s.all (fun c => decide (c < 256))
  | .vlist vs => decide (vs.length ≤ 2 ^ 64) && validItems vs
  | .vobj kvs => validObj kvs

/-- Well-formedness of the items of a list value. -/
def validItems : List Val → Bool
  | [] => true
  | v :: rest => validVal v && validItems rest

/-- Well-formedness of the entries of an object value: valid, pairwise
distinct keys and well-formed child values. -/
def validObj : List (List Nat × Val) → Bool
  | [] => true
  | (k, v) :: rest =>
    validName k && decide (k ∉ rest.map Prod.fst) && validVal v && validObj rest

end

/-- Prepend tokens to the output of a lexing continuation. -/
def prependToks (ts : List Tok) : Except Err (List Tok) → Except Err (List Tok)
  | .ok l => .ok (ts ++ l)
  | .error e => .error e

/-- The SISL type tag the encoder assigns to a value. -/
def typeTag : Val → List Nat
  | .vnull => bytes "null"
  | .vbool _ => bytes "bool"
  | .vint _ => bytes "int"
  | .vstr _ => bytes "str"
  | .vlist _ => bytes "list"
  | .vobj _ => bytes "obj"

mutual

/-- The token list the lexer produces for an encoded value's payload. -/
def toksPayload : Val → List Tok
  | .vnull => [.string []]
  | .vbool b => [.string (bytes (if b then "true" else "false"))]
  | .vint i => [.string (intDec i)]
  | .vstr s => [.string (escape s)]
  | .vlist vs => .lbrace :: toksListItems 0 vs ++ [.rbrace]
  | .vobj kvs => .lbrace :: toksObjEntries kvs ++ [.rbrace]

/-- Tokens of the encoded entries of an object grouping. -/
def toksObjEntries : List (List Nat × Val) → List Tok
  | [] => []
  | [(k, v)] => .name k :: .colon :: .bang :: .name (typeTag v) :: toksPayload v
  | (k, v) :: rest =>
    .name k :: .colon :: .bang :: .name (typeTag v) :: toksPayload v ++
      .comma :: toksObjEntries rest

/-- Tokens of the encoded items of a list grouping. -/
def toksListItems (idx : Nat) : List Val → List Tok
  | [] => []
  | [v] => .name (95 :: natDec idx) :: .colon :: .bang :: .name (typeTag v) :: toksPayload v
  | v :: rest =>
    .name (95 :: natDec idx) :: .colon :: .bang :: .name (typeTag v) :: toksPayload v ++
      .comma :: toksListItems (idx + 1) rest

end

mutual

/-- The parser payload produced for an encoded value. -/
def svalOf : Val → SVal
  | .vnull => .str []
  | .vbool b => .str (bytes (if b then "true" else "false"))
  | .vint i => .str (intDec i)
  | .vstr s => .str (escape s)
  | .vlist vs => .grp (elemsOfList 0 vs)
  | .vobj kvs => .grp (elemsOfObj kvs)

/-- The element list the parser builds from an encoded object grouping. -/
def elemsOfObj : List (List Nat × Val) → List SElem
  | [] => []
  | (k, v) :: rest => .mk k (typeTag v) (svalOf v) :: elemsOfObj rest

/-- The element list the parser builds from an encoded list grouping. -/
def elemsOfList (idx : Nat) : List Val → List SElem
  | [] => []
  | v :: rest => .mk (95 :: natDec idx) (typeTag v) (svalOf v) :: elemsOfList (idx + 1) rest

end

mutual

/-- A fuel bound sufficient for `parseValue` on an encoded payload. -/
def pfuelVal : Val → Nat
  | .vlist vs => pfuelItems 0 vs + 2
  | .vobj kvs => pfuelEntries kvs + 2
  | _ => 1

/-- A fuel bound sufficient for `parseElems` on encoded object entries. -/
def pfuelEntries : List (List Nat × Val) → Nat
  | [] => 0
  | [(_, v)] => pfuelVal v + 2
  | (_, v) :: rest => max (pfuelVal v + 2) (pfuelEntries rest + 1)

/-- A fuel bound sufficient for `parseElems` on encoded list items. -/
def pfuelItems (idx : Nat) : List Val → Nat
  | [] => 0
  | [v] => pfuelVal v + 2
  | v :: rest => max (pfuelVal v + 2) (pfuelItems (idx + 1) rest + 1)

end

/-- The (index, value) pairs of a list's items, indices counting from `k`. -/
def enumPairs (k : Nat) : List Val → List (Nat × Val)
  | [] => []
  | v :: rest => (k, v) :: enumPairs (k + 1) rest

/-! # Theorems -/

/-- **C10.** `merge_sisl_strings` applied to the empty list returns the
empty object without error (`merge.cpp` lines 193–196). -/
theorem merge_empty_list : mergeSislStrings [] = .ok (.vobj []) := rfl

/-- **C1.** Split–merge round-trip fails on the code: for
`v = {"a": {"x": 1, "y": 2}}` and `L = 23` the split succeeds (both
single-leaf fragments encode to exactly 23 bytes, and the full encoding has
36 bytes), yet it returns only the first fragment — the packing loop drops
the second fragment on the top-level key collision — so folding the result
through `merge` yields `{"a": {"x": 1}}`, not `v`. -/
theorem split_merge_roundtrip_fails :
    (dumps vColl).map List.length = .ok 36 ∧
    splitDumps vColl 23 = .ok [bytes "\x7ba: !obj \x7bx: !int \x221\x22\x7d\x7d"] ∧
    (splitDumps vColl 23).bind mergeSislStrings =
      .ok (.vobj [(bytes "a", .vobj [(bytes "x", .vint 1)])]) ∧
    Val.vobj [(bytes "a", .vobj [(bytes "x", .vint 1)])] ≠ vColl := by
  refine ⟨by decide, by decide, by decide, by decide⟩

/-- **C4.** The packing loop's collision handling: the tentative shallow
merge does abort with `combined` unchanged (first conjunct), but the code
then *accepts* the unchanged accumulator (its encoding still fits) and skips
the incoming fragment instead of flushing and restarting from it: on
`vColl` with `L = 23` the output is one fragment, not the two the flush
behaviour would produce. -/
theorem split_packing_drops_colliding_fragment :
    addFragEntries [(bytes "a", .vobj [(bytes "x", .vint 1)])]
        [(bytes "a", .vobj [(bytes "y", .vint 2)])] =
      [(bytes "a", .vobj [(bytes "x", .vint 1)])] ∧
    splitDumps vColl 23 = .ok [bytes "\x7ba: !obj \x7bx: !int \x221\x22\x7d\x7d"] ∧
    splitDumps vColl 23 ≠
      .ok [bytes "\x7ba: !obj \x7bx: !int \x221\x22\x7d\x7d", bytes "\x7ba: !obj \x7by: !int \x222\x22\x7d\x7d"] := by
  refine ⟨by decide, by decide, by decide⟩

/-! ## Escape round-trip (C5) -/

theorem isHexDigit_hexDigit {n : Nat} (h : n < 16) : isHexDigit (hexDigit n) = true := by
  revert n
  decide

theorem hexValue_hexDigit {n : Nat} (h : n < 16) : hexValue (hexDigit n) = n := by
  revert n
  decide

/-- A byte other than a backslash passes through the escape decoder. -/
theorem unescape_cons_plain {c : Nat} (h : ¬ c = 92) (rest : List Nat) :
    unescape (c :: rest) = consOut c (unescape rest) := by
  simp [unescape, h]

/-- Decoding consumes one produced escape unit and yields back the byte. -/
theorem unescape_escapeByte {c : Nat} (hc : c < 256) (rest : List Nat) :
    unescape (escapeByte c ++ rest) = consOut c (unescape rest) := by
  by_cases h34 : c = 34
  · subst h34; simp [escapeByte, unescape, unescapeEsc]
  by_cases h92 : c = 92
  · subst h92; simp [escapeByte, unescape, unescapeEsc]
  by_cases h13 : c = 13
  · subst h13; simp [escapeByte, unescape, unescapeEsc]
  by_cases h9 : c = 9
  · subst h9; simp [escapeByte, unescape, unescapeEsc]
  by_cases h10 : c = 10
  · subst h10; simp [escapeByte, unescape, unescapeEsc]
  by_cases hpr : 32 ≤ c ∧ c ≤ 126
  · have he : escapeByte c = [c] := by
      simp [escapeByte, h34, h92, h13, h9, h10, hpr.1, hpr.2]
    rw [he]
    exact unescape_cons_plain h92 rest
  · have he : escapeByte c = [92, 120, hexDigit (c / 16), hexDigit (c % 16)] := by
      simp only [escapeByte, if_neg h34, if_neg h92, if_neg h13, if_neg h9, if_neg h10]
      rw [if_neg]
      simp only [Bool.and_eq_true, decide_eq_true_eq, not_and]
      intro hle hge
      exact hpr ⟨hle, hge⟩
    have hdiv : c / 16 < 16 := by omega
    have hmod : c % 16 < 16 := by omega
    rw [he]
    simp only [List.cons_append, List.nil_append]
    simp [unescape, unescapeEsc, unescapeHex2,
      isHexDigit_hexDigit hdiv, isHexDigit_hexDigit hmod,
      hexValue_hexDigit hdiv, hexValue_hexDigit hmod, Nat.div_add_mod]

/-- Escape round-trip, as a helper shared with the value round-trip proof. -/
theorem unescape_escape_eq (b : List Nat) (hb : ∀ c ∈ b, c < 256) :
    unescape (escape b) = .ok b := by
  induction b with
  | nil => rfl
  | cons c rest ih =>
    have hc : c < 256 := hb c (List.mem_cons_self c rest)
    have hrest : ∀ x ∈ rest, x < 256 := fun x hx => hb x (List.mem_cons_of_mem c hx)
    have he : escape (c :: rest) = escapeByte c ++ escape rest := by
      simp [escape]
    rw [he, unescape_escapeByte hc, ih hrest]
    rfl

/-- **C5.** Escape round-trip: for every byte string `b`,
`unescape (escape b) = b` (`unicode_escape.cpp`). -/
theorem escape_roundtrip (b : List Nat) (hb : ∀ c ∈ b, c < 256) :
    unescape (escape b) = .ok b :=
  unescape_escape_eq b hb

/-- Witness for C5 at a concrete byte string covering every escape class. -/
theorem escape_roundtrip_witness :
    (∀ c ∈ ([0, 34, 65, 92, 9, 10, 13, 127, 155, 255] : List Nat), c < 256) ∧
    unescape (escape [0, 34, 65, 92, 9, 10, 13, 127, 155, 255]) =
      .ok [0, 34, 65, 92, 9, 10, 13, 127, 155, 255] :=
  ⟨by decide, escape_roundtrip [0, 34, 65, 92, 9, 10, 13, 127, 155, 255] (by decide)⟩

/-! ## Code point range handling (C6) -/

/-- **C6 counterexample.** The claim says `\u` escapes denoting surrogates
(U+D800–U+DFFF) raise an `EscapeError`; the code accepts `\ud800` and emits
the three-byte pattern `ED A0 80` (`codepoint_to_utf8` checks only the
0x110000 bound). -/
theorem surrogate_escape_accepted :
    unescape (bytes "\\ud800") = .ok [0xED, 0xA0, 0x80] := by decide

theorem codepointToUtf8_above {cp : Nat} (h : 0x10FFFF < cp) :
    codepointToUtf8 cp = .error (.escapeErr "Invalid Unicode codepoint") := by
  simp only [codepointToUtf8]
  rw [if_neg (by omega), if_neg (by omega), if_neg (by omega), if_neg (by omega)]

theorem codepointToUtf8_surrogate {cp : Nat} (hlo : 0xD800 ≤ cp) (hhi : cp ≤ 0xDFFF) :
    codepointToUtf8 cp = .ok [0xE0 + cp / 4096, 0x80 + cp / 64 % 64, 0x80 + cp % 64] := by
  simp only [codepointToUtf8]
  rw [if_neg (by omega), if_neg (by omega), if_pos (by omega)]

/-- **C6 (amended).** Escapes denoting code points above U+10FFFF raise an
`EscapeError`, but surrogate-range code points are *not* rejected: both
`\uHHHH` and `\UHHHHHHHH` escapes in U+D800–U+DFFF succeed and emit the
three-byte UTF-8 pattern of the surrogate code point. -/
theorem unescape_codepoint_ranges :
    (∀ h1 h2 h3 h4 h5 h6 h7 h8 rest,
      isHexDigit h1 = true → isHexDigit h2 = true → isHexDigit h3 = true →
      isHexDigit h4 = true → isHexDigit h5 = true → isHexDigit h6 = true →
      isHexDigit h7 = true → isHexDigit h8 = true →
      0x10FFFF < 268435456 * hexValue h1 + 16777216 * hexValue h2 + 1048576 * hexValue h3 +
        65536 * hexValue h4 + 4096 * hexValue h5 + 256 * hexValue h6 +
        16 * hexValue h7 + hexValue h8 →
      unescape (92 :: 85 :: h1 :: h2 :: h3 :: h4 :: h5 :: h6 :: h7 :: h8 :: rest) =
        .error (.escapeErr "Invalid Unicode codepoint")) ∧
    (∀ h1 h2 h3 h4 rest,
      isHexDigit h1 = true → isHexDigit h2 = true → isHexDigit h3 = true →
      isHexDigit h4 = true →
      0xD800 ≤ 4096 * hexValue h1 + 256 * hexValue h2 + 16 * hexValue h3 + hexValue h4 →
      4096 * hexValue h1 + 256 * hexValue h2 + 16 * hexValue h3 + hexValue h4 ≤ 0xDFFF →
      unescape (92 :: 117 :: h1 :: h2 :: h3 :: h4 :: rest) =
        appendOut
          [0xE0 + (4096 * hexValue h1 + 256 * hexValue h2 + 16 * hexValue h3 + hexValue h4) / 4096,
           0x80 + (4096 * hexValue h1 + 256 * hexValue h2 + 16 * hexValue h3 + hexValue h4) / 64 % 64,
           0x80 + (4096 * hexValue h1 + 256 * hexValue h2 + 16 * hexValue h3 + hexValue h4) % 64]
          (unescape rest)) ∧
    (∀ h1 h2 h3 h4 h5 h6 h7 h8 rest,
      isHexDigit h1 = true → isHexDigit h2 = true → isHexDigit h3 = true →
      isHexDigit h4 = true → isHexDigit h5 = true → isHexDigit h6 = true →
      isHexDigit h7 = true → isHexDigit h8 = true →
      0xD800 ≤ 268435456 * hexValue h1 + 16777216 * hexValue h2 + 1048576 * hexValue h3 +
        65536 * hexValue h4 + 4096 * hexValue h5 + 256 * hexValue h6 +
        16 * hexValue h7 + hexValue h8 →
      268435456 * hexValue h1 + 16777216 * hexValue h2 + 1048576 * hexValue h3 +
        65536 * hexValue h4 + 4096 * hexValue h5 + 256 * hexValue h6 +
        16 * hexValue h7 + hexValue h8 ≤ 0xDFFF →
      unescape (92 :: 85 :: h1 :: h2 :: h3 :: h4 :: h5 :: h6 :: h7 :: h8 :: rest) =
        appendOut
          [0xE0 + (268435456 * hexValue h1 + 16777216 * hexValue h2 + 1048576 * hexValue h3 +
             65536 * hexValue h4 + 4096 * hexValue h5 + 256 * hexValue h6 +
             16 * hexValue h7 + hexValue h8) / 4096,
           0x80 + (268435456 * hexValue h1 + 16777216 * hexValue h2 + 1048576 * hexValue h3 +
             65536 * hexValue h4 + 4096 * hexValue h5 + 256 * hexValue h6 +
             16 * hexValue h7 + hexValue h8) / 64 % 64,
           0x80 + (268435456 * hexValue h1 + 16777216 * hexValue h2 + 1048576 * hexValue h3 +
             65536 * hexValue h4 + 4096 * hexValue h5 + 256 * hexValue h6 +
             16 * hexValue h7 + hexValue h8) % 64]
          (unescape rest)) := by
  refine ⟨?_, ?_, ?_⟩
  · intro h1 h2 h3 h4 h5 h6 h7 h8 rest hh1 hh2 hh3 hh4 hh5 hh6 hh7 hh8 hcp
    simp [unescape, unescapeEsc, unescapeHex8, hh1, hh2, hh3, hh4, hh5, hh6, hh7, hh8,
      codepointToUtf8_above hcp]
  · intro h1 h2 h3 h4 rest hh1 hh2 hh3 hh4 hlo hhi
    simp [unescape, unescapeEsc, unescapeHex4, hh1, hh2, hh3, hh4,
      codepointToUtf8_surrogate hlo hhi]
  · intro h1 h2 h3 h4 h5 h6 h7 h8 rest hh1 hh2 hh3 hh4 hh5 hh6 hh7 hh8 hlo hhi
    simp [unescape, unescapeEsc, unescapeHex8, hh1, hh2, hh3, hh4, hh5, hh6, hh7, hh8,
      codepointToUtf8_surrogate hlo hhi]

/-- Witness for C6 at `\U00110000` (above U+10FFFF), `\ud800` and
`\U0000DFFF` (surrogates). -/
theorem unescape_codepoint_ranges_witness :
    unescape [92, 85, 48, 48, 49, 49, 48, 48, 48, 48] =
      .error (.escapeErr "Invalid Unicode codepoint") ∧
    unescape [92, 117, 100, 56, 48, 48] = appendOut [0xED, 0xA0, 0x80] (unescape []) ∧
    unescape [92, 85, 48, 48, 48, 48, 100, 102, 102, 102] =
      appendOut [0xED, 0xBF, 0xBF] (unescape []) :=
  ⟨unescape_codepoint_ranges.1 48 48 49 49 48 48 48 48 []
      (by decide) (by decide) (by decide) (by decide) (by decide) (by decide) (by decide)
      (by decide) (by decide),
   unescape_codepoint_ranges.2.1 100 56 48 48 []
      (by decide) (by decide) (by decide) (by decide) (by decide) (by decide),
   unescape_codepoint_ranges.2.2 48 48 48 48 100 102 102 102 []
      (by decide) (by decide) (by decide) (by decide) (by decide) (by decide) (by decide)
      (by decide) (by decide) (by decide)⟩

/-! ## Integer payload grammar (C7) -/

/-- **C7 counterexample.** The claim says a leading `+` raises a
`CodecError`; `std::stoll` accepts it, so decoding the int payload `"+1"`
succeeds with value 1. -/
theorem int_payload_plus_accepted :
    decodeStringValue (bytes "int") (bytes "+1") = .ok (.vint 1) := by decide

theorem dropWhile_append_of_all {p : Nat → Bool} :
    ∀ {xs : List Nat} (ys : List Nat), (∀ x ∈ xs, p x = true) →
      List.dropWhile p (xs ++ ys) = List.dropWhile p ys
  | [], ys, _ => rfl
  | x :: xs, ys, h => by
    have hx : p x = true := h x (List.mem_cons_self x xs)
    simp only [List.cons_append, List.dropWhile_cons, hx, if_true]
    exact dropWhile_append_of_all ys fun y hy => h y (List.mem_cons_of_mem x hy)

theorem dropWhile_cons_neg {p : Nat → Bool} {x : Nat} (l : List Nat)
    (h : ¬ p x = true) : List.dropWhile p (x :: l) = x :: l := by
  simp [List.dropWhile_cons, h]

theorem takeWhile_append_of_all {p : Nat → Bool} :
    ∀ {xs : List Nat} (ys : List Nat), (∀ x ∈ xs, p x = true) →
      (∀ j, ys.head? = some j → ¬ p j = true) →
      List.takeWhile p (xs ++ ys) = xs
  | [], ys, _, hy => by
    cases ys with
    | nil => rfl
    | cons y ys =>
      have hpy : ¬ p y = true := hy y rfl
      simp [List.takeWhile_cons, hpy]
  | x :: xs, ys, h, hy => by
    have hx : p x = true := h x (List.mem_cons_self x xs)
    simp only [List.cons_append, List.takeWhile_cons, hx, if_true, List.cons.injEq, true_and]
    exact takeWhile_append_of_all ys (fun y hym => h y (List.mem_cons_of_mem x hym)) hy

/-- With the unescape step fixed to succeed, int decoding is exactly the
`stoll` scan of the unescaped payload. -/
theorem decodeInt_eq_stoll {raw value : List Nat} (h : unescape raw = .ok value) :
    decodeStringValue (bytes "int") raw =
      match stoll value with
      | .ok i => .ok (.vint i)
      | .error _ => .error (.codecErr "Invalid integer value") := by
  simp only [decodeStringValue, h, bytes]
  rfl

/-- `stoll` on a payload decomposed into whitespace, sign, digit run and
trailing junk. -/
theorem stoll_decomposed (ws sgn junk : List Nat) (d0 : Nat) (ds' : List Nat)
    (hws : ∀ c ∈ ws, isCSpace c = true)
    (hsgn : sgn = [] ∨ sgn = [43] ∨ sgn = [45])
    (hdig : ∀ d ∈ d0 :: ds', isDigitByte d = true)
    (hjunk : ∀ j, junk.head? = some j → ¬ isDigitByte j = true) :
    stoll (ws ++ sgn ++ (d0 :: ds') ++ junk) =
      (if (if sgn = [45] then -(digitsVal (d0 :: ds') : Int) else (digitsVal (d0 :: ds') : Int)) < -(2 ^ 63) ∨
          2 ^ 63 - 1 < (if sgn = [45] then -(digitsVal (d0 :: ds') : Int) else (digitsVal (d0 :: ds') : Int))
       then .error ()
       else .ok (if sgn = [45] then -(digitsVal (d0 :: ds') : Int) else (digitsVal (d0 :: ds') : Int))) := by
  have hd0dig : isDigitByte d0 = true := hdig d0 (List.mem_cons_self d0 ds')
  have hd0' : 48 ≤ d0 ∧ d0 ≤ 57 := by
    simpa [isDigitByte] using hd0dig
  have hd0space : ¬ isCSpace d0 = true := by
    simp only [isCSpace, Bool.or_eq_true, decide_eq_true_eq]
    omega
  have htake : List.takeWhile isDigitByte ((d0 :: ds') ++ junk) = d0 :: ds' :=
    takeWhile_append_of_all junk hdig hjunk
  have htake2 : List.takeWhile isDigitByte (d0 :: (ds' ++ junk)) = d0 :: ds' := by
    rw [← List.cons_append]
    exact htake
  have hd043 : ¬ d0 = 43 := by omega
  have hd045 : ¬ d0 = 45 := by omega
  rcases hsgn with hs | hs | hs <;> subst hs
  · have hdrop : List.dropWhile isCSpace (ws ++ [] ++ (d0 :: ds') ++ junk) =
        (d0 :: ds') ++ junk := by
      rw [List.append_nil, List.append_assoc, dropWhile_append_of_all _ hws,
        List.cons_append, dropWhile_cons_neg _ hd0space]
    rw [stoll]
    simp only [hdrop]
    simp [stripSign, hd043, hd045]
    rw [htake2]
    simp [hd0dig]
  · have hdrop : List.dropWhile isCSpace (ws ++ [43] ++ (d0 :: ds') ++ junk) =
        [43] ++ ((d0 :: ds') ++ junk) := by
      rw [List.append_assoc, List.append_assoc, dropWhile_append_of_all _ hws,
        List.cons_append, List.nil_append, dropWhile_cons_neg _ (by decide)]
    rw [stoll]
    simp only [hdrop]
    simp [stripSign]
    rw [htake2]
    simp [hd0dig]
  · have hdrop : List.dropWhile isCSpace (ws ++ [45] ++ (d0 :: ds') ++ junk) =
        [45] ++ ((d0 :: ds') ++ junk) := by
      rw [List.append_assoc, List.append_assoc, dropWhile_append_of_all _ hws,
        List.cons_append, List.nil_append, dropWhile_cons_neg _ (by decide)]
    rw [stoll]
    simp only [hdrop]
    simp [stripSign]
    rw [htake2]
    simp [hd0dig]

/-- **C7 (amended).** Decoding an element with type tag `int` succeeds
exactly when the unescaped payload, after optional leading C-locale
whitespace and at most one `+`/`-` sign, starts with at least one decimal
digit whose maximal digit run denotes (after the sign) a value within the
signed 64-bit range; characters after the digit run are ignored.  In
particular a leading `+`, leading whitespace and trailing non-digits are
accepted, and underscores or radix prefixes merely end the digit run early
rather than raising.  A payload with no leading digit after whitespace and
sign, or with an out-of-range digit run, raises `CodecError`. -/
theorem int_payload_grammar :
    (∀ raw ws sgn junk (d0 : Nat) (ds' : List Nat),
      unescape raw = .ok (ws ++ sgn ++ (d0 :: ds') ++ junk) →
      (∀ c ∈ ws, isCSpace c = true) →
      (sgn = [] ∨ sgn = [43] ∨ sgn = [45]) →
      (∀ d ∈ d0 :: ds', isDigitByte d = true) →
      (∀ j, junk.head? = some j → ¬ isDigitByte j = true) →
      (-(2 ^ 63) ≤ (if sgn = [45] then -(digitsVal (d0 :: ds') : Int) else (digitsVal (d0 :: ds') : Int)) ∧
          (if sgn = [45] then -(digitsVal (d0 :: ds') : Int) else (digitsVal (d0 :: ds') : Int)) ≤ 2 ^ 63 - 1 →
        decodeStringValue (bytes "int") raw =
          .ok (.vint (if sgn = [45] then -(digitsVal (d0 :: ds') : Int) else (digitsVal (d0 :: ds') : Int)))) ∧
      ((if sgn = [45] then -(digitsVal (d0 :: ds') : Int) else (digitsVal (d0 :: ds') : Int)) < -(2 ^ 63) ∨
          2 ^ 63 - 1 < (if sgn = [45] then -(digitsVal (d0 :: ds') : Int) else (digitsVal (d0 :: ds') : Int)) →
        decodeStringValue (bytes "int") raw =
          .error (.codecErr "Invalid integer value"))) ∧
    (∀ raw value,
      unescape raw = .ok value →
      ((stripSign (value.dropWhile isCSpace)).2.takeWhile isDigitByte) = [] →
      decodeStringValue (bytes "int") raw = .error (.codecErr "Invalid integer value")) := by
  constructor
  · intro raw ws sgn junk d0 ds' hun hws hsgn hdig hjunk
    have hstoll := stoll_decomposed ws sgn junk d0 ds' hws hsgn hdig hjunk
    constructor
    · intro hin
      rw [decodeInt_eq_stoll hun, hstoll, if_neg (by omega)]
    · intro hout
      rw [decodeInt_eq_stoll hun, hstoll, if_pos hout]
  · intro raw value hun hempty
    rw [decodeInt_eq_stoll hun, stoll]
    simp only [hempty, List.isEmpty_nil, if_true]

/-- Witness for C7 at `"+1"` (accepted with value 1) and `"x"` (no digit,
rejected). -/
theorem int_payload_grammar_witness :
    decodeStringValue (bytes "int") (bytes "+1") = .ok (.vint 1) ∧
    decodeStringValue (bytes "int") (bytes "x") =
      .error (.codecErr "Invalid integer value") :=
  ⟨by
    have h := (int_payload_grammar.1 (bytes "+1") [] [43] [] 49 []
      (by decide) (by decide) (Or.inr (Or.inl rfl)) (by decide) (by decide)).1
      (by constructor <;> decide)
    simpa using h,
   int_payload_grammar.2 (bytes "x") (bytes "x") (by decide) (by decide)⟩

/-! ## Trailing lone backslash (C8) -/

theorem consOut_ok_inv {c : Nat} {x : Except Err (List Nat)} {r : List Nat}
    (h : consOut c x = .ok r) : ∃ r2, x = .ok r2 ∧ r = c :: r2 := by
  cases x with
  | ok r2 =>
    refine ⟨r2, rfl, ?_⟩
    simpa [consOut] using h.symm
  | error e => simp [consOut] at h

theorem appendOut_ok_inv {bs : List Nat} {x : Except Err (List Nat)} {r : List Nat}
    (h : appendOut bs x = .ok r) : ∃ r2, x = .ok r2 ∧ r = bs ++ r2 := by
  cases x with
  | ok r2 =>
    refine ⟨r2, rfl, ?_⟩
    simpa [appendOut] using h.symm
  | error e => simp [appendOut] at h

theorem consOut_disj {c : Nat} {y : Except Err (List Nat)} {r2 : List Nat}
    (hd : y = .ok (r2 ++ [92]) ∨ y = .ok r2) :
    consOut c y = .ok ((c :: r2) ++ [92]) ∨ consOut c y = .ok (c :: r2) := by
  rcases hd with h | h <;> rw [h] <;> simp [consOut]

theorem appendOut_disj {bs : List Nat} {y : Except Err (List Nat)} {r2 : List Nat}
    (hd : y = .ok (r2 ++ [92]) ∨ y = .ok r2) :
    appendOut bs y = .ok ((bs ++ r2) ++ [92]) ∨ appendOut bs y = .ok (bs ++ r2) := by
  rcases hd with h | h <;> rw [h] <;> simp [appendOut]

mutual

def escAppendMain : ∀ s r, unescape s = .ok r →
    unescape (s ++ [92]) = .ok (r ++ [92]) ∨ unescape (s ++ [92]) = .ok r
  | [], r, h => by
    left
    have hr : r = [] := by simpa [unescape] using h.symm
    subst hr
    simp [unescape, unescapeEsc]
  | c :: rest, r, h => by
    by_cases hc : c = 92
    · subst hc
      simp only [unescape, if_pos rfl] at h
      simp only [List.cons_append, unescape, if_pos rfl]
      exact escAppendEsc rest r h
    · simp only [unescape, if_neg hc] at h
      obtain ⟨r2, hrest, hr⟩ := consOut_ok_inv h
      subst hr
      simp only [List.cons_append, unescape, if_neg hc]
      exact consOut_disj (escAppendMain rest r2 hrest)

def escAppendEsc : ∀ s r, unescapeEsc s = .ok r →
    unescapeEsc (s ++ [92]) = .ok (r ++ [92]) ∨ unescapeEsc (s ++ [92]) = .ok r
  | [], r, h => by
    right
    have hr : r = [92] := by simpa [unescapeEsc] using h.symm
    subst hr
    simp [unescapeEsc, unescape, consOut]
  | d :: rest, r, h => by
    by_cases h34 : d = 34
    · subst h34
      simp only [unescapeEsc, if_pos rfl] at h
      obtain ⟨r2, hrest, hr⟩ := consOut_ok_inv h
      subst hr
      simp only [List.cons_append, unescapeEsc, if_pos rfl]
      exact consOut_disj (escAppendMain rest r2 hrest)
    by_cases h92 : d = 92
    · subst h92
      simp only [unescapeEsc, if_neg (by decide : ¬ (92 : Nat) = 34), if_pos rfl] at h
      obtain ⟨r2, hrest, hr⟩ := consOut_ok_inv h
      subst hr
      simp only [List.cons_append, unescapeEsc, if_neg (by decide : ¬ (92 : Nat) = 34), if_pos rfl]
      exact consOut_disj (escAppendMain rest r2 hrest)
    by_cases h114 : d = 114
    · subst h114
      simp only [unescapeEsc, if_neg, if_pos rfl] at h <;> try decide
      obtain ⟨r2, hrest, hr⟩ := consOut_ok_inv h
      subst hr
      simp only [List.cons_append, unescapeEsc, if_neg, if_pos rfl] <;> try decide
      exact consOut_disj (escAppendMain rest r2 hrest)
    by_cases h116 : d = 116
    · subst h116
      simp only [unescapeEsc, if_neg, if_pos rfl] at h <;> try decide
      obtain ⟨r2, hrest, hr⟩ := consOut_ok_inv h
      subst hr
      simp only [List.cons_append, unescapeEsc, if_neg, if_pos rfl] <;> try decide
      exact consOut_disj (escAppendMain rest r2 hrest)
    by_cases h110 : d = 110
    · subst h110
      simp only [unescapeEsc, if_neg, if_pos rfl] at h <;> try decide
      obtain ⟨r2, hrest, hr⟩ := consOut_ok_inv h
      subst hr
      simp only [List.cons_append, unescapeEsc, if_neg, if_pos rfl] <;> try decide
      exact consOut_disj (escAppendMain rest r2 hrest)
    by_cases h120 : d = 120
    · subst h120
      simp only [unescapeEsc, if_neg, if_pos rfl] at h <;> try decide
      simp only [List.cons_append, unescapeEsc, if_neg, if_pos rfl] <;> try decide
      · exact escAppendHex2 rest r h
      all_goals decide
    by_cases h117 : d = 117
    · subst h117
      simp only [unescapeEsc, if_neg, if_pos rfl] at h <;> try decide
      simp only [List.cons_append, unescapeEsc, if_neg, if_pos rfl] <;> try decide
      · exact escAppendHex4 rest r h
      all_goals decide
    by_cases h85 : d = 85
    · subst h85
      simp only [unescapeEsc, if_neg, if_pos rfl] at h <;> try decide
      simp only [List.cons_append, unescapeEsc, if_neg, if_pos rfl] <;> try decide
      · exact escAppendHex8 rest r h
      all_goals decide
    · exfalso
      simp only [unescapeEsc, if_neg h34, if_neg h92, if_neg h114, if_neg h116, if_neg h110,
        if_neg h120, if_neg h117, if_neg h85] at h
      exact absurd h (by simp)

def escAppendHex2 : ∀ s r, unescapeHex2 s = .ok r →
    unescapeHex2 (s ++ [92]) = .ok (r ++ [92]) ∨ unescapeHex2 (s ++ [92]) = .ok r
  | h1 :: h2 :: rest, r, h => by
    simp only [unescapeHex2] at h
    by_cases hx : isHexDigit h1 && isHexDigit h2
    · rw [if_pos hx] at h
      obtain ⟨r2, hrest, hr⟩ := consOut_ok_inv h
      subst hr
      simp only [List.cons_append, unescapeHex2, if_pos hx]
      exact consOut_disj (escAppendMain rest r2 hrest)
    · rw [if_neg hx] at h
      exact absurd h (by simp)
  | [], r, h => by simp [unescapeHex2] at h
  | [h1], r, h => by simp [unescapeHex2] at h

def escAppendHex4 : ∀ s r, unescapeHex4 s = .ok r →
    unescapeHex4 (s ++ [92]) = .ok (r ++ [92]) ∨ unescapeHex4 (s ++ [92]) = .ok r
  | h1 :: h2 :: h3 :: h4 :: rest, r, h => by
    simp only [unescapeHex4] at h
    by_cases hx : isHexDigit h1 && isHexDigit h2 && isHexDigit h3 && isHexDigit h4
    · rw [if_pos hx] at h
      cases hcp : codepointToUtf8
          (4096 * hexValue h1 + 256 * hexValue h2 + 16 * hexValue h3 + hexValue h4) with
      | ok bs =>
        rw [hcp] at h
        obtain ⟨r2, hrest, hr⟩ := appendOut_ok_inv h
        subst hr
        simp only [List.cons_append, unescapeHex4, if_pos hx, hcp]
        exact appendOut_disj (escAppendMain rest r2 hrest)
      | error e =>
        rw [hcp] at h
        exact absurd h (by simp)
    · rw [if_neg hx] at h
      exact absurd h (by simp)
  | [], r, h => by simp [unescapeHex4] at h
  | [h1], r, h => by simp [unescapeHex4] at h
  | [h1, h2], r, h => by simp [unescapeHex4] at h
  | [h1, h2, h3], r, h => by simp [unescapeHex4] at h

def escAppendHex8 : ∀ s r, unescapeHex8 s = .ok r →
    unescapeHex8 (s ++ [92]) = .ok (r ++ [92]) ∨ unescapeHex8 (s ++ [92]) = .ok r
  | h1 :: h2 :: h3 :: h4 :: h5 :: h6 :: h7 :: h8 :: rest, r, h => by
    simp only [unescapeHex8] at h
    by_cases hx : isHexDigit h1 && isHexDigit h2 && isHexDigit h3 && isHexDigit h4 &&
        isHexDigit h5 && isHexDigit h6 && isHexDigit h7 && isHexDigit h8
    · rw [if_pos hx] at h
      cases hcp : codepointToUtf8
          (268435456 * hexValue h1 + 16777216 * hexValue h2 + 1048576 * hexValue h3 +
           65536 * hexValue h4 + 4096 * hexValue h5 + 256 * hexValue h6 +
           16 * hexValue h7 + hexValue h8) with
      | ok bs =>
        rw [hcp] at h
        obtain ⟨r2, hrest, hr⟩ := appendOut_ok_inv h
        subst hr
        simp only [List.cons_append, unescapeHex8, if_pos hx, hcp]
        exact appendOut_disj (escAppendMain rest r2 hrest)
      | error e =>
        rw [hcp] at h
        exact absurd h (by simp)
    · rw [if_neg hx] at h
      exact absurd h (by simp)
  | [], r, h => by simp [unescapeHex8] at h
  | [h1], r, h => by simp [unescapeHex8] at h
  | [h1, h2], r, h => by simp [unescapeHex8] at h
  | [h1, h2, h3], r, h => by simp [unescapeHex8] at h
  | [h1, h2, h3, h4], r, h => by simp [unescapeHex8] at h
  | [h1, h2, h3, h4, h5], r, h => by simp [unescapeHex8] at h
  | [h1, h2, h3, h4, h5, h6], r, h => by simp [unescapeHex8] at h
  | [h1, h2, h3, h4, h5, h6, h7], r, h => by simp [unescapeHex8] at h

end

/-- **C8.** Appending a backslash to any input that unescapes successfully
still unescapes successfully: the appended backslash is copied verbatim to
the end of the output (first disjunct; this is the claim's case, where the
final backslash begins an escape sequence with nothing after it), unless
the input itself ended in a lone backslash, in which case the two now form
a `\\` escape and the output is unchanged (second disjunct; the appended
byte is then a selector, not the start of an escape).  In particular no
`EscapeError` is raised. -/
theorem trailing_lone_backslash (s r : List Nat) (h : unescape s = .ok r) :
    unescape (s ++ [92]) = .ok (r ++ [92]) ∨ unescape (s ++ [92]) = .ok r :=
  escAppendMain s r h

/-- Witness for C8: `"ab"` unescapes, and with a trailing backslash appended
the backslash comes back verbatim. -/
theorem trailing_lone_backslash_witness :
    unescape [97, 98] = .ok [97, 98] ∧
    (unescape [97, 98, 92] = .ok ([97, 98] ++ [92]) ∨ unescape [97, 98, 92] = .ok [97, 98]) :=
  ⟨by decide, trailing_lone_backslash [97, 98] [97, 98] (by decide)⟩

/-! ## Duplicate object keys on decode (C9) -/

theorem except_bind_ok {α β : Type} (a : α) (f : α → Except Err β) :
    (Except.ok a >>= f) = f a := rfl

theorem except_bind_error {α β : Type} (e : Err) (f : α → Except Err β) :
    ((Except.error e : Except Err α) >>= f) = .error e := rfl

/-- **C9 counterexample.** Duplicate names alone raise no error, but the
claim as stated quantifies over *every* grouping with duplicate names, and
an element whose payload is malformed still raises: in
`{a: !int "x", a: !int "1"}` the first `a` fails integer decoding. -/
theorem duplicate_keys_decode_can_still_error :
    sislToJson
        [.mk (bytes "a") (bytes "int") (.str (bytes "x")),
         .mk (bytes "a") (bytes "int") (.str (bytes "1"))] =
      .error (.codecErr "Invalid integer value") := by decide

/-- The decoder's object loop is the upsert fold of the decoded pairs. -/
theorem decodeObjEntries_eq_upsertFold :
    ∀ (es : List SElem) (acc ps : List (List Nat × Val)),
      decodeAllPairs es = .ok ps →
      decodeObjEntries es acc = .ok (upsertFold acc ps)
  | [], acc, ps, h => by
    have hps : ps = [] := by
      have : (Except.ok [] : Except Err (List (List Nat × Val))) = .ok ps := h
      cases this
      rfl
    subst hps
    rfl
  | e :: rest, acc, ps, h => by
    simp only [decodeAllPairs] at h
    cases hd : decodeElement e with
    | error err =>
      rw [hd, except_bind_error] at h
      exact Except.noConfusion h
    | ok v =>
      rw [hd, except_bind_ok] at h
      cases hrest : decodeAllPairs rest with
      | error err =>
        rw [hrest, except_bind_error] at h
        exact Except.noConfusion h
      | ok ps2 =>
        rw [hrest, except_bind_ok] at h
        have hps : ps = (e.name, v) :: ps2 := by cases h; rfl
        subst hps
        simp only [decodeObjEntries, hd, except_bind_ok]
        rw [decodeObjEntries_eq_upsertFold rest (upsert acc e.name v) ps2 hrest]
        rfl

theorem upsert_not_mem :
    ∀ (acc : List (List Nat × Val)) (k : List Nat) (v : Val),
      k ∉ acc.map Prod.fst → upsert acc k v = acc ++ [(k, v)]
  | [], k, v, _ => rfl
  | (k2, v2) :: acc, k, v, h => by
    have hne : ¬ k2 = k := by
      intro he
      exact h (by simp [he])
    simp only [upsert, if_neg hne, List.cons_append, List.cons.injEq, true_and]
    exact upsert_not_mem acc k v (fun hm => h (by simp [hm]))

theorem keys_upsert_mem :
    ∀ (acc : List (List Nat × Val)) (k : List Nat) (v : Val),
      k ∈ acc.map Prod.fst → (upsert acc k v).map Prod.fst = acc.map Prod.fst
  | [], k, v, h => by simp at h
  | (k2, v2) :: acc, k, v, h => by
    by_cases he : k2 = k
    · simp [upsert, he]
    · have hm : k ∈ acc.map Prod.fst := by
        simp only [List.map_cons, List.mem_cons] at h
        rcases h with h | h
        · exact absurd h.symm he
        · exact h
      simp only [upsert, if_neg he, List.map_cons]
      rw [keys_upsert_mem acc k v hm]

theorem lastValueFor_cons_ne {k2 k : List Nat} {v2 v : Val} {ps : List (List Nat × Val)}
    (h : ¬ k2 = k) :
    lastValueFor k2 v2 ((k, v) :: ps) = lastValueFor k2 v2 ps := by
  unfold lastValueFor
  rw [List.filter_cons]
  have hd : (decide ((k, v).1 = k2)) = false := decide_eq_false (fun hc => h hc.symm)
  rw [hd]
  simp

theorem lastValueFor_cons_eq {k : List Nat} {v2 v : Val} {ps : List (List Nat × Val)} :
    lastValueFor k v2 ((k, v) :: ps) = lastValueFor k v ps := by
  unfold lastValueFor
  rw [List.filter_cons]
  have hd : (decide ((k, v).1 = k)) = true := decide_eq_true rfl
  rw [hd]
  simp

theorem updateAll_cons_not_mem {acc : List (List Nat × Val)} {k : List Nat} {v : Val}
    {ps : List (List Nat × Val)} (h : ∀ p ∈ acc, ¬ p.1 = k) :
    updateAll acc ((k, v) :: ps) = updateAll acc ps := by
  simp only [updateAll]
  apply List.map_congr_left
  intro p hp
  rw [lastValueFor_cons_ne (h p hp)]

theorem updateAll_upsert_mem :
    ∀ (acc : List (List Nat × Val)) (k : List Nat) (v : Val) (ps : List (List Nat × Val)),
      (acc.map Prod.fst).Nodup → k ∈ acc.map Prod.fst →
      updateAll (upsert acc k v) ps = updateAll acc ((k, v) :: ps)
  | [], k, v, ps, _, h => by simp at h
  | (k2, v2) :: acc, k, v, ps, hnd, h => by
    by_cases he : k2 = k
    · subst he
      have hk2 : k2 ∉ acc.map Prod.fst := by
        simp only [List.map_cons, List.nodup_cons] at hnd
        exact hnd.1
      have hnotk : ∀ p ∈ acc, ¬ p.1 = k2 := by
        intro p hp hc
        apply hk2
        rw [← hc]
        exact List.mem_map_of_mem Prod.fst hp
      have h6 := @updateAll_cons_not_mem acc k2 v ps hnotk
      simp only [updateAll] at h6
      simp [upsert, updateAll, lastValueFor_cons_eq, h6]
    · have hm : k ∈ acc.map Prod.fst := by
        simp only [List.map_cons, List.mem_cons] at h
        rcases h with h | h
        · exact absurd h.symm he
        · exact h
      have hnd2 : (acc.map Prod.fst).Nodup := by
        simp only [List.map_cons, List.nodup_cons] at hnd
        exact hnd.2
      simp only [upsert, if_neg he, updateAll, List.map_cons]
      rw [lastValueFor_cons_ne he]
      simp only [List.cons.injEq, true_and]
      have hrec := updateAll_upsert_mem acc k v ps hnd2 hm
      simp only [updateAll] at hrec
      exact hrec

theorem collapseAux_congr :
    ∀ (ps : List (List Nat × Val)) (s1 s2 : List (List Nat)),
      (∀ x, x ∈ s1 ↔ x ∈ s2) → collapseAux s1 ps = collapseAux s2 ps
  | [], _, _, _ => rfl
  | (k, v) :: ps, s1, s2, h => by
    by_cases hk : k ∈ s1
    · simp only [collapseAux, if_pos hk, if_pos ((h k).1 hk)]
      exact collapseAux_congr ps s1 s2 h
    · simp only [collapseAux, if_neg hk, if_neg (fun hc => hk ((h k).2 hc))]
      rw [collapseAux_congr ps (k :: s1) (k :: s2) (by
        intro x
        simp only [List.mem_cons]
        constructor
        · rintro (hx | hx)
          · exact Or.inl hx
          · exact Or.inr ((h x).1 hx)
        · rintro (hx | hx)
          · exact Or.inl hx
          · exact Or.inr ((h x).2 hx))]

/-- The upsert fold equals the collapse of the pair list, relative to an
accumulator with distinct keys. -/
theorem upsertFold_eq_collapse :
    ∀ (ps : List (List Nat × Val)) (acc : List (List Nat × Val)),
      (acc.map Prod.fst).Nodup →
      upsertFold acc ps = updateAll acc ps ++ collapseAux (acc.map Prod.fst) ps
  | [], acc, _ => by
    simp [upsertFold, updateAll, collapseAux, lastValueFor]
  | (k, v) :: ps, acc, hnd => by
    have hstep : upsertFold acc ((k, v) :: ps) = upsertFold (upsert acc k v) ps := rfl
    rw [hstep]
    by_cases hk : k ∈ acc.map Prod.fst
    · rw [upsertFold_eq_collapse ps (upsert acc k v)
        (by rw [keys_upsert_mem acc k v hk]; exact hnd)]
      rw [keys_upsert_mem acc k v hk, updateAll_upsert_mem acc k v ps hnd hk]
      simp only [collapseAux, if_pos hk]
    · have hnd2 : ((acc ++ [(k, v)]).map Prod.fst).Nodup := by
        simp only [List.map_append, List.map_cons, List.map_nil]
        rw [List.nodup_append]
        refine ⟨hnd, List.nodup_singleton _, ?_⟩
        intro a ha hc
        simp only [List.mem_singleton] at hc
        subst hc
        exact hk ha
      rw [upsert_not_mem acc k v hk]
      rw [upsertFold_eq_collapse ps (acc ++ [(k, v)]) hnd2]
      have h5 : updateAll (acc ++ [(k, v)]) ps = updateAll acc ps ++ [(k, lastValueFor k v ps)] := by
        simp [updateAll]
      rw [h5]
      have h6 : updateAll acc ((k, v) :: ps) = updateAll acc ps := by
        apply updateAll_cons_not_mem
        intro p hp hc
        apply hk
        rw [← hc]
        exact List.mem_map_of_mem Prod.fst hp
      rw [h6]
      simp only [List.map_append, List.map_cons, List.map_nil, collapseAux, if_neg hk]
      rw [collapseAux_congr ps (acc.map Prod.fst ++ [k]) (k :: acc.map Prod.fst) (by
        intro x
        simp only [List.mem_append, List.mem_cons, List.mem_singleton]
        tauto)]
      simp

/-- **C9.** When a grouping's elements all decode, `sisl_to_json` raises no
error even in the presence of duplicate names, and returns the object whose
entries are the decoded pairs with duplicate names collapsed: one entry per
name at the position of the name's first occurrence, holding the value of
the name's last occurrence (`obj[elem.name] = decode_element(elem)` over
`nlohmann::ordered_json`). -/
theorem duplicate_keys_last_wins (es : List SElem) (ps : List (List Nat × Val))
    (h : decodeAllPairs es = .ok ps) :
    sislToJson es = .ok (.vobj (collapse ps)) := by
  rw [sislToJson]
  rw [decodeObjEntries_eq_upsertFold es [] ps h]
  have := upsertFold_eq_collapse ps [] (by simp)
  simp only [updateAll, List.map_nil, List.nil_append] at this
  rw [except_bind_ok, this]
  rfl

/-- Witness for C9 on the grouping `{a: !int "1", b: !int "2", a: !int "3"}`:
one `a` entry survives, first position, last value. -/
theorem duplicate_keys_last_wins_witness :
    decodeAllPairs
        [.mk (bytes "a") (bytes "int") (.str (bytes "1")),
         .mk (bytes "b") (bytes "int") (.str (bytes "2")),
         .mk (bytes "a") (bytes "int") (.str (bytes "3"))] =
      .ok [(bytes "a", .vint 1), (bytes "b", .vint 2), (bytes "a", .vint 3)] ∧
    collapse [(bytes "a", .vint 1), (bytes "b", .vint 2), (bytes "a", .vint 3)] =
      [(bytes "a", .vint 3), (bytes "b", .vint 2)] ∧
    sislToJson
        [.mk (bytes "a") (bytes "int") (.str (bytes "1")),
         .mk (bytes "b") (bytes "int") (.str (bytes "2")),
         .mk (bytes "a") (bytes "int") (.str (bytes "3"))] =
      .ok (.vobj (collapse [(bytes "a", .vint 1), (bytes "b", .vint 2), (bytes "a", .vint 3)])) :=
  ⟨by decide, by decide,
   duplicate_keys_last_wins
     [.mk (bytes "a") (bytes "int") (.str (bytes "1")),
      .mk (bytes "b") (bytes "int") (.str (bytes "2")),
      .mk (bytes "a") (bytes "int") (.str (bytes "3"))]
     [(bytes "a", .vint 1), (bytes "b", .vint 2), (bytes "a", .vint 3)] (by decide)⟩

/-! ## Split bound (C3) -/

/-- **C3 counterexample.** For `v = {}` (no primitive leaves, so every
budget is at least the maximum single-leaf fragment size) and `L = 1`,
`split_dumps` returns the two-byte string `"{}"`, which exceeds the budget
(the C++ returns `{"{}"}` instead of raising for budgets below 2). -/
theorem split_bound_violated_at_tiny_budget :
    collectLeaves [] (Val.vobj []) = [] ∧
    splitDumps (.vobj []) 1 = .ok [[123, 125]] ∧
    ¬ (([123, 125] : List Nat).length ≤ 1) := by
  refine ⟨by decide, by decide, by decide⟩

mutual

def leavesExtend : ∀ (v : Val) (path p : List PathComp) (lf : Val),
    (p, lf) ∈ collectLeaves path v → ∃ tail, p = path ++ tail
  | .vobj kvs, path, p, lf, h => by
    simp only [collectLeaves] at h
    obtain ⟨c, cs, hp⟩ := leavesExtendObj kvs path p lf h
    exact ⟨c :: cs, hp⟩
  | .vlist vs, path, p, lf, h => by
    simp only [collectLeaves] at h
    obtain ⟨c, cs, hp⟩ := leavesExtendList vs path 0 p lf h
    exact ⟨c :: cs, hp⟩
  | .vnull, path, p, lf, h => by
    simp only [collectLeaves, List.mem_singleton, Prod.mk.injEq] at h
    exact ⟨[], by simp [h.1]⟩
  | .vbool b, path, p, lf, h => by
    simp only [collectLeaves, List.mem_singleton, Prod.mk.injEq] at h
    exact ⟨[], by simp [h.1]⟩
  | .vint i, path, p, lf, h => by
    simp only [collectLeaves, List.mem_singleton, Prod.mk.injEq] at h
    exact ⟨[], by simp [h.1]⟩
  | .vstr s, path, p, lf, h => by
    simp only [collectLeaves, List.mem_singleton, Prod.mk.injEq] at h
    exact ⟨[], by simp [h.1]⟩

def leavesExtendObj : ∀ (kvs : List (List Nat × Val)) (path p : List PathComp) (lf : Val),
    (p, lf) ∈ collectLeavesObj path kvs → ∃ c cs, p = path ++ c :: cs
  | [], path, p, lf, h => by simp [collectLeavesObj] at h
  | (k, v) :: rest, path, p, lf, h => by
    simp only [collectLeavesObj, List.mem_append] at h
    rcases h with h | h
    · obtain ⟨tail, hp⟩ := leavesExtend v (path ++ [.key k]) p lf h
      exact ⟨.key k, tail, by simp [hp]⟩
    · exact leavesExtendObj rest path p lf h

def leavesExtendList : ∀ (vs : List Val) (path : List PathComp) (idx : Nat) (p : List PathComp) (lf : Val),
    (p, lf) ∈ collectLeavesList path idx vs → ∃ c cs, p = path ++ c :: cs
  | [], path, idx, p, lf, h => by simp [collectLeavesList] at h
  | v :: rest, path, idx, p, lf, h => by
    simp only [collectLeavesList, List.mem_append] at h
    rcases h with h | h
    · obtain ⟨tail, hp⟩ := leavesExtend v (path ++ [.index idx]) p lf h
      exact ⟨.index idx, tail, by simp [hp]⟩
    · exact leavesExtendList rest path (idx + 1) p lf h

end

/-- A fragment built along a non-empty path is a (single-entry) object. -/
theorem buildFragment_cons_obj (c : PathComp) (cs : List PathComp) (lf : Val) :
    ∃ kvs1, buildFragment (c :: cs) lf = .vobj kvs1 := by
  cases c with
  | key k => exact ⟨[(k, (buildFragment cs lf))], rfl⟩
  | index i => exact ⟨[(95 :: natDec i, (buildFragment cs lf))], rfl⟩

/-- Step 3 succeeds and produces the leaf fragments paired with their
encodings whenever every fragment is an object within budget. -/
theorem buildAllFragments_ok (L : Nat) :
    ∀ (leaves : List (List PathComp × Val)),
      (∀ pf ∈ leaves, (∃ kvs1, buildFragment pf.1 pf.2 = .vobj kvs1) ∧ (fragEnc pf).length ≤ L) →
      buildAllFragments L leaves =
        .ok (leaves.map (fun pf => (buildFragment pf.1 pf.2, fragEnc pf)))
  | [], _ => rfl
  | (path, leaf) :: rest, h => by
    obtain ⟨⟨kvs1, hobj⟩, hlen⟩ := h (path, leaf) (List.mem_cons_self _ _)
    have hdumps : dumps (buildFragment path leaf) = .ok (fragEnc (path, leaf)) := by
      rw [fragEnc, hobj]
      rfl
    simp only [buildAllFragments, hdumps, except_bind_ok]
    rw [if_neg (by omega)]
    rw [buildAllFragments_ok L rest (fun pf hpf => h pf (List.mem_cons_of_mem _ hpf))]
    rfl

/-- The packing loop never exceeds the budget: starting from an accumulator
whose encoding fits, with every remaining fragment an object whose own
encoding fits, it succeeds and emits only strings within the budget. -/
theorem packLoop_bound (L : Nat) :
    ∀ (frags : List (Val × List Nat)) (combined : List (List Nat × Val)) (curEnc : List Nat),
      curEnc.length ≤ L →
      (∀ f ∈ frags, (∃ kvs1, f.1 = Val.vobj kvs1) ∧ f.2.length ≤ L) →
      ∃ out, packLoop L combined curEnc frags = .ok out ∧ ∀ s ∈ out, s.length ≤ L
  | [], combined, curEnc, hcur, _ =>
    ⟨[curEnc], rfl, by
      intro s hs
      simp only [List.mem_singleton] at hs
      subst hs
      exact hcur⟩
  | (frag, fragE) :: rest, combined, curEnc, hcur, hf => by
    obtain ⟨⟨kvs1, hobj⟩, hlen⟩ := hf (frag, fragE) (List.mem_cons_self _ _)
    have hobj2 : frag = Val.vobj kvs1 := hobj
    have hrest : ∀ f ∈ rest, (∃ kvs2, f.1 = Val.vobj kvs2) ∧ f.2.length ≤ L :=
      fun f hfm => hf f (List.mem_cons_of_mem _ hfm)
    have hfes : fragEntries frag = .ok kvs1 := by rw [hobj2]; rfl
    by_cases hfit :
        (123 :: encObjEntries (addFragEntries combined kvs1) ++ [125]).length ≤ L
    · obtain ⟨out, hout, hbound⟩ :=
        packLoop_bound L rest (addFragEntries combined kvs1)
          (123 :: encObjEntries (addFragEntries combined kvs1) ++ [125]) hfit hrest
      refine ⟨out, ?_, hbound⟩
      simp only [packLoop, hfes, except_bind_ok]
      rw [if_pos hfit]
      exact hout
    · obtain ⟨out, hout, hbound⟩ := packLoop_bound L rest kvs1 fragE hlen hrest
      refine ⟨curEnc :: out, ?_, ?_⟩
      · simp only [packLoop, hfes, except_bind_ok]
        rw [if_neg hfit, hout]
        rfl
      · intro s hs
        simp only [List.mem_cons] at hs
        rcases hs with hs | hs
        · subst hs; exact hcur
        · exact hbound s hs

/-- **C3 (amended).** For every value whose top level is an object and every
byte budget of at least 2 bytes and at least every single-leaf fragment
encoding size, `split_dumps` succeeds and every byte string it returns has
length at most the budget. -/
theorem split_bound (kvs : List (List Nat × Val)) (L : Nat) (h2 : 2 ≤ L)
    (hfrag : ∀ pf ∈ collectLeaves [] (Val.vobj kvs), (fragEnc pf).length ≤ L) :
    ∃ out, splitDumps (.vobj kvs) L = .ok out ∧ ∀ s ∈ out, s.length ≤ L := by
  have hobjfrag : ∀ pf ∈ collectLeaves [] (Val.vobj kvs),
      ∃ kvs1, buildFragment pf.1 pf.2 = Val.vobj kvs1 := by
    intro pf hpf
    obtain ⟨c, cs, hp⟩ := leavesExtendObj kvs [] pf.1 pf.2 (by
      simpa [collectLeaves] using hpf)
    rw [hp]
    simp only [List.nil_append]
    exact buildFragment_cons_obj c cs pf.2
  rw [splitDumps]
  simp only [dumps, except_bind_ok]
  by_cases hfull : (123 :: encObjEntries kvs ++ [125]).length ≤ L
  · rw [if_pos hfull]
    exact ⟨[], rfl, by simp⟩
  · rw [if_neg hfull]
    cases hlv : collectLeaves [] (Val.vobj kvs) with
    | nil => exact ⟨[[123, 125]], rfl, by
        intro s hs
        simp only [List.mem_singleton] at hs
        subst hs
        simpa using h2⟩
    | cons pf0 lrest =>
      have hall : ∀ pf ∈ pf0 :: lrest,
          (∃ kvs1, buildFragment pf.1 pf.2 = Val.vobj kvs1) ∧ (fragEnc pf).length ≤ L := by
        intro pf hpf
        rw [← hlv] at hpf
        exact ⟨hobjfrag pf hpf, hfrag pf hpf⟩
      have hbuild := buildAllFragments_ok L (pf0 :: lrest) hall
      simp only [hbuild, except_bind_ok, List.map_cons]
      obtain ⟨⟨kvs0, hobj0⟩, hlen0⟩ := hall pf0 (List.mem_cons_self _ _)
      have hfes0 : fragEntries (buildFragment pf0.1 pf0.2) = .ok kvs0 := by
        rw [hobj0]; rfl
      simp only [hfes0, except_bind_ok]
      exact packLoop_bound L (lrest.map fun pf => (buildFragment pf.1 pf.2, fragEnc pf))
        kvs0 (fragEnc pf0) hlen0 (by
          intro f hfm
          simp only [List.mem_map] at hfm
          obtain ⟨pf, hpf, hfeq⟩ := hfm
          subst hfeq
          exact hall pf (List.mem_cons_of_mem _ hpf))

/-- Witness for C3 at `{"a": 1, "b": 2}` with budget 14 (each single-leaf
fragment encodes to exactly 14 bytes). -/
theorem split_bound_witness :
    ∃ out, splitDumps (.vobj [(bytes "a", .vint 1), (bytes "b", .vint 2)]) 14 = .ok out ∧
      ∀ s ∈ out, s.length ≤ 14 :=
  split_bound [(bytes "a", .vint 1), (bytes "b", .vint 2)] 14 (by decide) (by decide)

/-! ## Value round-trip (C2): lexing the encoder output -/

theorem prependToks_append (a b : List Tok) (x : Except Err (List Tok)) :
    prependToks (a ++ b) x = prependToks a (prependToks b x) := by
  cases x <;> simp [prependToks]

theorem consTok_eq_prepend (t : Tok) (x : Except Err (List Tok)) :
    consTok t x = prependToks [t] x := by
  cases x <;> simp [consTok, prependToks]

theorem nameStart_facts {c : Nat} (h : isNameStart c = true) :
    isWsByte c = false ∧ ¬ c = 123 ∧ ¬ c = 125 ∧ ¬ c = 58 ∧ ¬ c = 44 ∧ ¬ c = 33 ∧ ¬ c = 34 := by
  simp only [isNameStart, Bool.or_eq_true, Bool.and_eq_true, decide_eq_true_eq] at h
  refine ⟨?_, ?_, ?_, ?_, ?_, ?_, ?_⟩
  · simp only [isWsByte, Bool.or_eq_false_iff, decide_eq_false_iff_not]
    omega
  all_goals omega

theorem isNameChar_digit {c : Nat} (h : isDigitByte c = true) : isNameChar c = true := by
  simp only [isDigitByte, Bool.and_eq_true, decide_eq_true_eq] at h
  simp only [isNameChar, isNameStart, Bool.or_eq_true, Bool.and_eq_true, decide_eq_true_eq]
  omega

theorem lexNorm_nameStart {c : Nat} (h : isNameStart c = true) (r : List Nat) :
    lexRun .norm (c :: r) = lexRun (.inName [c]) r := by
  obtain ⟨hws, h123, h125, h58, h44, h33, h34⟩ := nameStart_facts h
  simp [lexRun, hws, h123, h125, h58, h44, h33, h34, h]

theorem lexName_exit_colon (acc r : List Nat) :
    lexRun (.inName acc) (58 :: r) = consTok (.name acc) (consTok .colon (lexRun .norm r)) := by
  simp [lexRun, isNameChar, isNameStart, isWsByte]

theorem lexName_exit_space (acc r : List Nat) :
    lexRun (.inName acc) (32 :: r) = consTok (.name acc) (lexRun .norm r) := by
  simp [lexRun, isNameChar, isNameStart, isWsByte]

/-- Scanning a NAME body extends the accumulator. -/
theorem lexName_body :
    ∀ (body acc r : List Nat), body.all isNameChar = true →
      lexRun (.inName acc) (body ++ r) = lexRun (.inName (acc ++ body)) r
  | [], acc, r, _ => by simp
  | c :: body, acc, r, h => by
    simp only [List.all_cons, Bool.and_eq_true] at h
    simp only [List.cons_append, lexRun, h.1, if_true, List.append_eq]
    rw [lexName_body body (acc ++ [c]) r h.2]
    simp

/-- A NAME followed by a colon lexes to the name token and the colon. -/
theorem lexName_colon {nm : List Nat} (h : validName nm = true) (r : List Nat) :
    lexRun .norm (nm ++ 58 :: r) =
      prependToks [.name nm, .colon] (lexRun .norm r) := by
  cases nm with
  | nil => simp [validName] at h
  | cons c body =>
    simp only [validName, Bool.and_eq_true] at h
    rw [List.cons_append, lexNorm_nameStart h.1, lexName_body body [c] (58 :: r) h.2,
      lexName_exit_colon]
    cases lexRun .norm r <;> simp [consTok, prependToks]

/-- A NAME followed by a space lexes to the name token, the space skipped. -/
theorem lexName_space {nm : List Nat} (h : validName nm = true) (r : List Nat) :
    lexRun .norm (nm ++ 32 :: r) = prependToks [.name nm] (lexRun .norm r) := by
  cases nm with
  | nil => simp [validName] at h
  | cons c body =>
    simp only [validName, Bool.and_eq_true] at h
    rw [List.cons_append, lexNorm_nameStart h.1, lexName_body body [c] (32 :: r) h.2,
      lexName_exit_space]
    cases lexRun .norm r <;> simp [consTok, prependToks]

/-- Plain string-literal content (no quote, no backslash) accumulates. -/
theorem lexStr_plain :
    ∀ (content acc r : List Nat), (∀ c ∈ content, ¬ c = 34 ∧ ¬ c = 92) →
      lexRun (.inStr acc) (content ++ r) = lexRun (.inStr (acc ++ content)) r
  | [], acc, r, _ => by simp
  | c :: content, acc, r, h => by
    obtain ⟨h34, h92⟩ := h c (List.mem_cons_self _ _)
    simp only [List.cons_append, lexRun, if_neg h34, if_neg h92, List.append_eq]
    rw [lexStr_plain content (acc ++ [c]) r (fun x hx => h x (List.mem_cons_of_mem _ hx))]
    simp

theorem hexDigit_plain {n : Nat} (h : n < 16) : ¬ hexDigit n = 34 ∧ ¬ hexDigit n = 92 := by
  revert n
  decide

/-- Escaped string content accumulates through the string scanner. -/
theorem lexStr_escape :
    ∀ (s : List Nat) (acc r : List Nat), (∀ c ∈ s, c < 256) →
      lexRun (.inStr acc) (escape s ++ r) = lexRun (.inStr (acc ++ escape s)) r
  | [], acc, r, _ => by simp [escape]
  | c :: s, acc, r, h => by
    have hc : c < 256 := h c (List.mem_cons_self _ _)
    have hs : ∀ x ∈ s, x < 256 := fun x hx => h x (List.mem_cons_of_mem _ hx)
    have hesc : escape (c :: s) = escapeByte c ++ escape s := by simp [escape]
    rw [hesc, List.append_assoc]
    by_cases h34 : c = 34
    · subst h34
      have : escapeByte 34 = [92, 34] := by decide
      rw [this]
      simp only [List.cons_append, List.nil_append, lexRun]
      norm_num
      rw [lexStr_escape s (acc ++ [92, 34]) r hs]
      simp
    by_cases h92 : c = 92
    · subst h92
      have : escapeByte 92 = [92, 92] := by decide
      rw [this]
      simp only [List.cons_append, List.nil_append, lexRun]
      norm_num
      rw [lexStr_escape s (acc ++ [92, 92]) r hs]
      simp
    by_cases h13 : c = 13
    · subst h13
      have : escapeByte 13 = [92, 114] := by decide
      rw [this]
      simp only [List.cons_append, List.nil_append, lexRun]
      norm_num
      rw [lexStr_escape s (acc ++ [92, 114]) r hs]
      simp
    by_cases h9 : c = 9
    · subst h9
      have : escapeByte 9 = [92, 116] := by decide
      rw [this]
      simp only [List.cons_append, List.nil_append, lexRun]
      norm_num
      rw [lexStr_escape s (acc ++ [92, 116]) r hs]
      simp
    by_cases h10 : c = 10
    · subst h10
      have : escapeByte 10 = [92, 110] := by decide
      rw [this]
      simp only [List.cons_append, List.nil_append, lexRun]
      norm_num
      rw [lexStr_escape s (acc ++ [92, 110]) r hs]
      simp
    by_cases hpr : 32 ≤ c ∧ c ≤ 126
    · have he : escapeByte c = [c] := by
        simp [escapeByte, h34, h92, h13, h9, h10, hpr.1, hpr.2]
      rw [he]
      simp only [List.cons_append, List.nil_append, List.append_eq, lexRun,
        if_neg h34, if_neg h92]
      rw [lexStr_escape s (acc ++ [c]) r hs]
      simp
    · have he : escapeByte c = [92, 120, hexDigit (c / 16), hexDigit (c % 16)] := by
        simp only [escapeByte, if_neg h34, if_neg h92, if_neg h13, if_neg h9, if_neg h10]
        rw [if_neg]
        simp only [Bool.and_eq_true, decide_eq_true_eq, not_and]
        intro hle hge
        exact hpr ⟨hle, hge⟩
      obtain ⟨hd1a, _⟩ := @hexDigit_plain (c / 16) (by omega)
      obtain ⟨hd2a, _⟩ := @hexDigit_plain (c % 16) (by omega)
      rw [he]
      simp [lexRun, hd1a, hd2a]
      rw [lexStr_escape s (acc ++ [92, 120, hexDigit (c / 16), hexDigit (c % 16)]) r hs]
      simp

/-- A complete quoted string literal lexes to its string token, provided the
inner content walks the scanner (plain or escaped content below). -/
theorem lexStr_close (acc r : List Nat) :
    lexRun (.inStr acc) (34 :: r) = consTok (.string acc) (lexRun .norm r) := by
  simp [lexRun]

theorem lexNorm_bang (r : List Nat) :
    lexRun .norm (33 :: r) = consTok .bang (lexRun .norm r) := by
  simp [lexRun, isWsByte]

theorem lexNorm_lbrace (r : List Nat) :
    lexRun .norm (123 :: r) = consTok .lbrace (lexRun .norm r) := by
  simp [lexRun, isWsByte]

theorem lexNorm_rbrace (r : List Nat) :
    lexRun .norm (125 :: r) = consTok .rbrace (lexRun .norm r) := by
  simp [lexRun, isWsByte]

theorem lexNorm_comma (r : List Nat) :
    lexRun .norm (44 :: r) = consTok .comma (lexRun .norm r) := by
  simp [lexRun, isWsByte]

theorem lexNorm_ws (r : List Nat) :
    lexRun .norm (32 :: r) = lexRun .norm r := by
  simp [lexRun, isWsByte]

theorem lexNorm_quote (r : List Nat) :
    lexRun .norm (34 :: r) = lexRun (.inStr []) r := by
  simp [lexRun, isWsByte]

/-- A quoted literal with plain content lexes to its string token. -/
theorem lexQuoted_plain {content : List Nat} (h : ∀ c ∈ content, ¬ c = 34 ∧ ¬ c = 92)
    (r : List Nat) :
    lexRun .norm (34 :: (content ++ 34 :: r)) = consTok (.string content) (lexRun .norm r) := by
  rw [lexNorm_quote, lexStr_plain content [] (34 :: r) h, List.nil_append, lexStr_close]

/-- A quoted literal with escaped content lexes to its string token. -/
theorem lexQuoted_escape {s : List Nat} (h : ∀ c ∈ s, c < 256) (r : List Nat) :
    lexRun .norm (34 :: (escape s ++ 34 :: r)) =
      consTok (.string (escape s)) (lexRun .norm r) := by
  rw [lexNorm_quote, lexStr_escape s [] (34 :: r) h, List.nil_append, lexStr_close]

theorem natDigitsLE_lt10 :
    ∀ (fuel n d : Nat), d ∈ natDigitsLE fuel n → d < 10
  | 0, _, _, h => by simp [natDigitsLE] at h
  | fuel + 1, n, d, h => by
    by_cases hn : n = 0
    · simp [natDigitsLE, hn] at h
    · simp only [natDigitsLE, if_neg hn, List.mem_cons] at h
      rcases h with h | h
      · omega
      · exact natDigitsLE_lt10 fuel (n / 10) d h

theorem natDec_range {n c : Nat} (h : c ∈ natDec n) : 48 ≤ c ∧ c ≤ 57 := by
  by_cases hn : n = 0
  · subst hn
    simp [natDec] at h
    omega
  · simp only [natDec, if_neg hn, List.mem_reverse, List.mem_map] at h
    obtain ⟨d, hd, hc⟩ := h
    have := natDigitsLE_lt10 (n + 1) n d hd
    omega

theorem intDec_range {i : Int} {c : Nat} (h : c ∈ intDec i) :
    c = 45 ∨ (48 ≤ c ∧ c ≤ 57) := by
  by_cases hi : i < 0
  · simp only [intDec, if_pos hi, List.mem_cons] at h
    rcases h with h | h
    · exact Or.inl h
    · exact Or.inr (natDec_range h)
  · simp only [intDec, if_neg hi] at h
    exact Or.inr (natDec_range h)

theorem natDec_all_nameChar (n : Nat) : (natDec n).all isNameChar = true := by
  rw [List.all_eq_true]
  intro c hc
  obtain ⟨h1, h2⟩ := natDec_range hc
  apply isNameChar_digit
  simp only [isDigitByte, Bool.and_eq_true, decide_eq_true_eq]
  omega

theorem validName_index (idx : Nat) : validName (95 :: natDec idx) = true := by
  simp only [validName, Bool.and_eq_true]
  exact ⟨by decide, natDec_all_nameChar idx⟩

theorem intDec_plain {i : Int} : ∀ c ∈ intDec i, ¬ c = 34 ∧ ¬ c = 92 := by
  intro c hc
  rcases intDec_range hc with h | h <;> omega

mutual

/-- Lexing an encoded value: bang, type name, payload tokens. -/
def lexVal : ∀ (v : Val) (r : List Nat), validVal v = true →
    lexRun .norm (encValue v ++ r) =
      prependToks (.bang :: .name (typeTag v) :: toksPayload v) (lexRun .norm r)
  | .vnull, r, _ => by
    simp only [encValue, List.cons_append, List.append_assoc, List.nil_append, List.append_eq]
    rw [lexNorm_bang, lexName_space (by decide) (34 :: 34 :: r), lexNorm_quote, lexStr_close]
    cases lexRun .norm r <;> simp [consTok, prependToks, typeTag, toksPayload]
  | .vbool b, r, _ => by
    simp only [encValue, List.cons_append, List.append_assoc, List.nil_append, List.append_eq]
    rw [lexNorm_bang, lexName_space (by decide) _]
    cases b <;>
      rw [lexQuoted_plain (by decide) r] <;>
      (cases lexRun .norm r <;> simp [consTok, prependToks, typeTag, toksPayload])
  | .vint i, r, _ => by
    simp only [encValue, List.cons_append, List.append_assoc, List.nil_append, List.append_eq]
    rw [lexNorm_bang, lexName_space (by decide) _, lexQuoted_plain intDec_plain r]
    cases lexRun .norm r <;> simp [consTok, prependToks, typeTag, toksPayload]
  | .vstr s, r, hv => by
    have hb : ∀ c ∈ s, c < 256 := by
      simpa [validVal, List.all_eq_true] using hv
    simp only [encValue, List.cons_append, List.append_assoc, List.nil_append, List.append_eq]
    rw [lexNorm_bang, lexName_space (by decide) _, lexQuoted_escape hb r]
    cases lexRun .norm r <;> simp [consTok, prependToks, typeTag, toksPayload]
  | .vlist vs, r, hv => by
    have hitems : validItems vs = true := by
      simp only [validVal, Bool.and_eq_true] at hv
      exact hv.2
    simp only [encValue, List.cons_append, List.append_assoc, List.nil_append, List.append_eq]
    rw [lexNorm_bang, lexName_space (by decide) _, lexNorm_lbrace]
    cases vs with
    | nil =>
      simp only [encListItems, List.nil_append]
      rw [lexNorm_rbrace]
      cases lexRun .norm r <;> simp [consTok, prependToks, typeTag, toksPayload, toksListItems]
    | cons v0 vrest =>
      rw [lexListItems (v0 :: vrest) 0 (125 :: r) hitems (by simp), lexNorm_rbrace]
      cases lexRun .norm r <;> simp [consTok, prependToks, typeTag, toksPayload]
  | .vobj kvs, r, hv => by
    have hobj : validObj kvs = true := hv
    simp only [encValue, List.cons_append, List.append_assoc, List.nil_append, List.append_eq]
    rw [lexNorm_bang, lexName_space (by decide) _, lexNorm_lbrace]
    cases kvs with
    | nil =>
      simp only [encObjEntries, List.nil_append]
      rw [lexNorm_rbrace]
      cases lexRun .norm r <;> simp [consTok, prependToks, typeTag, toksPayload, toksObjEntries]
    | cons e0 erest =>
      rw [lexObjEntries (e0 :: erest) (125 :: r) hobj (by simp), lexNorm_rbrace]
      cases lexRun .norm r <;> simp [consTok, prependToks, typeTag, toksPayload]

/-- Lexing the encoded entries of a non-empty object grouping. -/
def lexObjEntries : ∀ (kvs : List (List Nat × Val)) (r : List Nat),
    validObj kvs = true → kvs ≠ [] →
    lexRun .norm (encObjEntries kvs ++ r) =
      prependToks (toksObjEntries kvs) (lexRun .norm r)
  | [], _, _, hne => absurd rfl hne
  | [(k, v)], r, hv, _ => by
    simp only [validObj, Bool.and_eq_true] at hv
    obtain ⟨⟨⟨hk, -⟩, hvv⟩, -⟩ := hv
    simp only [encObjEntries, List.cons_append, List.append_assoc, List.nil_append,
      List.append_eq]
    rw [lexName_colon hk _, lexNorm_ws, lexVal v r hvv]
    cases lexRun .norm r <;> simp [consTok, prependToks, toksObjEntries]
  | (k, v) :: e2 :: rest, r, hv, _ => by
    rw [validObj] at hv
    simp only [Bool.and_eq_true] at hv
    obtain ⟨⟨⟨hk, -⟩, hvv⟩, hrest⟩ := hv
    simp only [encObjEntries, List.cons_append, List.append_assoc, List.nil_append,
      List.append_eq]
    rw [lexName_colon hk _, lexNorm_ws,
      lexVal v (44 :: 32 :: (encObjEntries (e2 :: rest) ++ r)) hvv,
      lexNorm_comma, lexNorm_ws,
      lexObjEntries (e2 :: rest) r hrest (by simp)]
    cases lexRun .norm r <;> simp [consTok, prependToks, toksObjEntries]

/-- Lexing the encoded items of a non-empty list grouping. -/
def lexListItems : ∀ (vs : List Val) (idx : Nat) (r : List Nat),
    validItems vs = true → vs ≠ [] →
    lexRun .norm (encListItems idx vs ++ r) =
      prependToks (toksListItems idx vs) (lexRun .norm r)
  | [], _, _, _, hne => absurd rfl hne
  | [v], idx, r, hv, _ => by
    simp only [validItems, Bool.and_eq_true] at hv
    simp only [encListItems, List.cons_append, List.append_assoc, List.nil_append,
      List.append_eq]
    rw [lexNorm_nameStart (by decide) _,
      lexName_body (natDec idx) [95] _ (natDec_all_nameChar idx), lexName_exit_colon,
      lexNorm_ws, lexVal v r hv.1]
    cases lexRun .norm r <;> simp [consTok, prependToks, toksListItems]
  | v :: v2 :: rest, idx, r, hv, _ => by
    rw [validItems] at hv
    simp only [Bool.and_eq_true] at hv
    simp only [encListItems, List.cons_append, List.append_assoc, List.nil_append,
      List.append_eq]
    rw [lexNorm_nameStart (by decide) _,
      lexName_body (natDec idx) [95] _ (natDec_all_nameChar idx), lexName_exit_colon,
      lexNorm_ws, lexVal v (44 :: 32 :: (encListItems (idx + 1) (v2 :: rest) ++ r)) hv.1,
      lexNorm_comma, lexNorm_ws,
      lexListItems (v2 :: rest) (idx + 1) r hv.2 (by simp)]
    cases lexRun .norm r <;> simp [consTok, prependToks, toksListItems]

end

/-! ## Value round-trip (C2): parsing the token stream -/

theorem toksObjEntries_head :
    ∀ (k : List Nat) (v : Val) (rest : List (List Nat × Val)),
      ∃ ts, toksObjEntries ((k, v) :: rest) = .name k :: ts
  | k, v, [] => ⟨_, rfl⟩
  | k, v, _ :: _ => ⟨_, rfl⟩

theorem toksListItems_head :
    ∀ (idx : Nat) (v : Val) (rest : List Val),
      ∃ ts, toksListItems idx (v :: rest) = .name (95 :: natDec idx) :: ts
  | idx, v, [] => ⟨_, rfl⟩
  | idx, v, _ :: _ => ⟨_, rfl⟩

mutual

/-- Parsing the payload tokens of an encoded value. -/
def parseVal : ∀ (v : Val) (fuel : Nat) (rest : List Tok), pfuelVal v ≤ fuel →
    parseValue fuel (toksPayload v ++ rest) = .ok (svalOf v, rest)
  | .vnull, fuel, rest, hf => by
    match fuel, hf with
    | f + 1, _ => simp [toksPayload, parseValue, svalOf]
  | .vbool b, fuel, rest, hf => by
    match fuel, hf with
    | f + 1, _ => simp [toksPayload, parseValue, svalOf]
  | .vint i, fuel, rest, hf => by
    match fuel, hf with
    | f + 1, _ => simp [toksPayload, parseValue, svalOf]
  | .vstr s, fuel, rest, hf => by
    match fuel, hf with
    | f + 1, _ => simp [toksPayload, parseValue, svalOf]
  | .vlist vs, fuel, rest, hf => by
    match fuel, hf with
    | f + 1, hf =>
      have hf2 : pfuelItems 0 vs + 2 ≤ f + 1 := by simpa [pfuelVal] using hf
      cases vs with
      | nil =>
        match f, hf2 with
        | f2 + 1, _ =>
          simp [toksPayload, toksListItems, parseValue, parseGrouping, svalOf, elemsOfList,
            except_bind_ok]
      | cons v0 vrest =>
        match f, hf2 with
        | f2 + 1, hf2 =>
          obtain ⟨ts, hts⟩ := toksListItems_head 0 v0 vrest
          simp only [toksPayload, List.cons_append, List.append_assoc, List.nil_append,
            List.append_eq, parseValue, parseGrouping]
          rw [hts]
          simp only [List.cons_append]
          rw [← List.cons_append, ← hts,
            parseItemsList (v0 :: vrest) 0 f2 rest (by simp) (by omega)]
          simp [svalOf, except_bind_ok]
  | .vobj kvs, fuel, rest, hf => by
    match fuel, hf with
    | f + 1, hf =>
      have hf2 : pfuelEntries kvs + 2 ≤ f + 1 := by simpa [pfuelVal] using hf
      cases kvs with
      | nil =>
        match f, hf2 with
        | f2 + 1, _ =>
          simp [toksPayload, toksObjEntries, parseValue, parseGrouping, svalOf, elemsOfObj,
            except_bind_ok]
      | cons e0 erest =>
        match f, hf2 with
        | f2 + 1, hf2 =>
          obtain ⟨k0, v0⟩ := e0
          obtain ⟨ts, hts⟩ := toksObjEntries_head k0 v0 erest
          simp only [toksPayload, List.cons_append, List.append_assoc, List.nil_append,
            List.append_eq, parseValue, parseGrouping]
          rw [hts]
          simp only [List.cons_append]
          rw [← List.cons_append, ← hts,
            parseEntriesObj ((k0, v0) :: erest) f2 rest (by simp) (by omega)]
          simp [svalOf, except_bind_ok]

/-- Parsing the entry tokens of a non-empty encoded object grouping up to
and including the closing brace. -/
def parseEntriesObj : ∀ (kvs : List (List Nat × Val)) (fuel : Nat) (rest : List Tok),
    kvs ≠ [] → pfuelEntries kvs ≤ fuel →
    parseElems fuel (toksObjEntries kvs ++ .rbrace :: rest) = .ok (elemsOfObj kvs, rest)
  | [], _, _, hne, _ => absurd rfl hne
  | [(k, v)], fuel, rest, _, hf => by
    have hf1 : pfuelVal v + 2 ≤ fuel := by simpa [pfuelEntries] using hf
    match fuel, hf1 with
    | f + 1, hf1 =>
      match f, (by omega : pfuelVal v + 1 ≤ f) with
      | f2 + 1, _ =>
        simp only [toksObjEntries, List.cons_append, List.append_assoc, List.nil_append,
          List.append_eq, parseElems, parseElement]
        rw [parseVal v f2 (.rbrace :: rest) (by omega)]
        simp [elemsOfObj, except_bind_ok]
  | (k, v) :: e2 :: erest, fuel, rest, _, hf => by
    have hf1 : max (pfuelVal v + 2) (pfuelEntries (e2 :: erest) + 1) ≤ fuel := by
      simpa [pfuelEntries] using hf
    match fuel, (by omega : pfuelVal v + 2 ≤ fuel) with
    | f + 1, hx =>
      match f, (by omega : pfuelVal v + 1 ≤ f) with
      | f2 + 1, _ =>
        obtain ⟨k2, v2⟩ := e2
        obtain ⟨ts, hts⟩ := toksObjEntries_head k2 v2 erest
        simp only [toksObjEntries, List.cons_append, List.append_assoc, List.nil_append,
          List.append_eq, parseElems, parseElement]
        rw [parseVal v f2 (.comma :: (toksObjEntries ((k2, v2) :: erest) ++ .rbrace :: rest))
          (by omega)]
        simp only [except_bind_ok]
        rw [hts]
        simp only [List.cons_append]
        rw [← List.cons_append, ← hts]
        have hrec := parseEntriesObj ((k2, v2) :: erest) (f2 + 1) rest (by simp) (by omega)
        rw [parseElems] at hrec
        rw [hrec]
        simp [elemsOfObj, except_bind_ok]

/-- Parsing the item tokens of a non-empty encoded list grouping up to and
including the closing brace. -/
def parseItemsList : ∀ (vs : List Val) (idx fuel : Nat) (rest : List Tok),
    vs ≠ [] → pfuelItems idx vs ≤ fuel →
    parseElems fuel (toksListItems idx vs ++ .rbrace :: rest) = .ok (elemsOfList idx vs, rest)
  | [], _, _, _, hne, _ => absurd rfl hne
  | [v], idx, fuel, rest, _, hf => by
    have hf1 : pfuelVal v + 2 ≤ fuel := by simpa [pfuelItems] using hf
    match fuel, hf1 with
    | f + 1, hf1 =>
      match f, (by omega : pfuelVal v + 1 ≤ f) with
      | f2 + 1, _ =>
        simp only [toksListItems, List.cons_append, List.append_assoc, List.nil_append,
          List.append_eq, parseElems, parseElement]
        rw [parseVal v f2 (.rbrace :: rest) (by omega)]
        simp [elemsOfList, except_bind_ok]
  | v :: v2 :: vrest, idx, fuel, rest, _, hf => by
    have hf1 : max (pfuelVal v + 2) (pfuelItems (idx + 1) (v2 :: vrest) + 1) ≤ fuel := by
      simpa [pfuelItems] using hf
    match fuel, (by omega : pfuelVal v + 2 ≤ fuel) with
    | f + 1, hx =>
      match f, (by omega : pfuelVal v + 1 ≤ f) with
      | f2 + 1, _ =>
        obtain ⟨ts, hts⟩ := toksListItems_head (idx + 1) v2 vrest
        simp only [toksListItems, List.cons_append, List.append_assoc, List.nil_append,
          List.append_eq, parseElems, parseElement]
        rw [parseVal v f2 (.comma :: (toksListItems (idx + 1) (v2 :: vrest) ++ .rbrace :: rest))
          (by omega)]
        simp only [except_bind_ok]
        rw [hts]
        simp only [List.cons_append]
        rw [← List.cons_append, ← hts]
        have hrec := parseItemsList (v2 :: vrest) (idx + 1) (f2 + 1) rest (by simp) (by omega)
        rw [parseElems] at hrec
        rw [hrec]
        simp [elemsOfList, except_bind_ok]

end

/-! ## Value round-trip (C2): decoding the element tree -/

theorem unescape_no_backslash :
    ∀ (s : List Nat), (∀ c ∈ s, ¬ c = 92) → unescape s = .ok s
  | [], _ => rfl
  | c :: rest, h => by
    rw [unescape_cons_plain (h c (List.mem_cons_self _ _)),
      unescape_no_backslash rest (fun x hx => h x (List.mem_cons_of_mem _ hx))]
    rfl

theorem takeWhile_all {p : Nat → Bool} :
    ∀ {l : List Nat}, l.all p = true → l.takeWhile p = l
  | [], _ => rfl
  | c :: rest, h => by
    simp only [List.all_cons, Bool.and_eq_true] at h
    simp only [List.takeWhile_cons, h.1, if_true]
    rw [takeWhile_all h.2]

theorem natDec_ne_nil (n : Nat) : natDec n ≠ [] := by
  by_cases hn : n = 0
  · subst hn
    simp [natDec]
  · simp only [natDec, if_neg hn]
    simp only [ne_eq, List.reverse_eq_nil_iff, List.map_eq_nil_iff]
    cases hf : natDigitsLE (n + 1) n with
    | nil =>
      exfalso
      rw [natDigitsLE, if_neg hn] at hf
      exact List.noConfusion hf
    | cons d rest => simp

/-- The decimal-digit value of `natDec`, via `Nat.ofDigits`. -/
theorem digitsVal_fold_aux :
    ∀ (l : List Nat) (acc : Nat),
      List.foldl (fun a d => 10 * a + (d - 48)) acc ((l.map (· + 48)).reverse) =
        acc * 10 ^ l.length + Nat.ofDigits 10 l
  | [], acc => by simp [Nat.ofDigits]
  | d :: ds, acc => by
    simp only [List.map_cons, List.reverse_cons, List.foldl_append, List.foldl_cons,
      List.foldl_nil]
    rw [digitsVal_fold_aux ds acc]
    simp only [Nat.ofDigits_cons, List.length_cons]
    ring_nf
    omega

theorem natDigitsLE_eq :
    ∀ (fuel n : Nat), n < fuel → natDigitsLE fuel n = Nat.digits 10 n
  | 0, n, h => by omega
  | fuel + 1, n, h => by
    by_cases hn : n = 0
    · subst hn
      simp [natDigitsLE]
    · rw [natDigitsLE, if_neg hn, Nat.digits_def' (by norm_num : 1 < 10) (by omega : 0 < n),
        natDigitsLE_eq fuel (n / 10) (by
          have := Nat.div_lt_self (by omega : 0 < n) (by norm_num : 1 < 10)
          omega)]

theorem digitsVal_natDec (n : Nat) : digitsVal (natDec n) = n := by
  by_cases hn : n = 0
  · subst hn
    simp [natDec, digitsVal]
  · simp only [natDec, if_neg hn, digitsVal]
    rw [natDigitsLE_eq (n + 1) n (by omega), digitsVal_fold_aux (Nat.digits 10 n) 0]
    simp [Nat.ofDigits_digits]

theorem natDec_all_digits (n : Nat) : (natDec n).all isDigitByte = true := by
  rw [List.all_eq_true]
  intro c hc
  obtain ⟨h1, h2⟩ := natDec_range hc
  simp only [isDigitByte, Bool.and_eq_true, decide_eq_true_eq]
  omega

theorem natDec_head_digit (n : Nat) :
    ∃ c rest2, natDec n = c :: rest2 ∧ 48 ≤ c ∧ c ≤ 57 := by
  cases hd : natDec n with
  | nil => exact absurd hd (natDec_ne_nil n)
  | cons c rest2 =>
    have : c ∈ natDec n := by rw [hd]; exact List.mem_cons_self _ _
    obtain ⟨h1, h2⟩ := natDec_range this
    exact ⟨c, rest2, rfl, h1, h2⟩

/-- `std::stoull` on a plain decimal digit string below 2^64. -/
theorem stoull_natDec {n : Nat} (h : n < 2 ^ 64) : stoull (natDec n) = .ok n := by
  obtain ⟨c, rest2, hd, hc1, hc2⟩ := natDec_head_digit n
  rw [stoull, hd]
  rw [List.dropWhile_cons]
  rw [if_neg (by simp [isCSpace]; omega)]
  simp only [stripSign, if_neg (by omega : ¬ c = 43), if_neg (by omega : ¬ c = 45)]
  rw [← hd, takeWhile_all (natDec_all_digits n)]
  rw [show (natDec n).isEmpty = false from by
    cases hnd : natDec n with
    | nil => exact absurd hnd (natDec_ne_nil n)
    | cons a b => rfl]
  simp only [Bool.false_eq_true, if_false, digitsVal_natDec]
  rw [if_neg (by omega)]

/-- `std::stoll` on the decimal rendering of an in-range integer. -/
theorem stoll_intDec {i : Int} (hlo : -(2 ^ 63) ≤ i) (hhi : i ≤ 2 ^ 63 - 1) :
    stoll (intDec i) = .ok i := by
  by_cases hneg : i < 0
  · simp only [intDec, if_pos hneg]
    rw [stoll]
    rw [List.dropWhile_cons]
    rw [if_neg (by simp [isCSpace])]
    simp only [stripSign, if_neg (by omega : ¬ (45 : Nat) = 43), if_pos rfl, if_true]
    rw [takeWhile_all (natDec_all_digits (-i).toNat)]
    rw [show (natDec (-i).toNat).isEmpty = false from by
      cases hnd : natDec (-i).toNat with
      | nil => exact absurd hnd (natDec_ne_nil _)
      | cons a b => rfl]
    simp only [Bool.false_eq_true, if_false, digitsVal_natDec]
    rw [if_neg (by
      simp only [Bool.or_eq_true, decide_eq_true_eq, not_or]
      constructor <;> omega)]
    congr 1
    omega
  · simp only [intDec, if_neg hneg]
    obtain ⟨c, rest2, hd, hc1, hc2⟩ := natDec_head_digit i.toNat
    rw [stoll, hd]
    rw [List.dropWhile_cons]
    rw [if_neg (by simp [isCSpace]; omega)]
    simp only [stripSign, if_neg (by omega : ¬ c = 43), if_neg (by omega : ¬ c = 45)]
    rw [← hd, takeWhile_all (natDec_all_digits i.toNat)]
    rw [show (natDec i.toNat).isEmpty = false from by
      cases hnd : natDec i.toNat with
      | nil => exact absurd hnd (natDec_ne_nil _)
      | cons a b => rfl]
    simp only [Bool.false_eq_true, if_false, digitsVal_natDec]
    rw [if_neg (by
      simp only [Bool.or_eq_true, decide_eq_true_eq, not_or]
      constructor <;> omega)]
    congr 1
    omega

theorem insertSorted_ge :
    ∀ (acc : List (Nat × Val)) (p : Nat × Val), (∀ q ∈ acc, q.1 ≤ p.1) →
      insertSorted acc p = acc ++ [p]
  | [], p, _ => rfl
  | q :: acc, p, h => by
    simp only [insertSorted, if_pos (h q (List.mem_cons_self _ _)), List.cons_append,
      List.cons.injEq, true_and]
    exact insertSorted_ge acc p (fun x hx => h x (List.mem_cons_of_mem _ hx))

theorem enumPairs_indices_ge :
    ∀ (vs : List Val) (k : Nat) (q : Nat × Val), q ∈ enumPairs k vs → k ≤ q.1
  | [], k, q, h => by simp [enumPairs] at h
  | v :: rest, k, q, h => by
    simp only [enumPairs, List.mem_cons] at h
    rcases h with h | h
    · subst h
      rfl
    · have := enumPairs_indices_ge rest (k + 1) q h
      omega

theorem sortByIndex_enumPairs_aux :
    ∀ (vs : List Val) (k : Nat) (acc : List (Nat × Val)), (∀ q ∈ acc, q.1 ≤ k) →
      List.foldl insertSorted acc (enumPairs k vs) = acc ++ enumPairs k vs
  | [], k, acc, _ => by simp [enumPairs]
  | v :: rest, k, acc, h => by
    simp only [enumPairs, List.foldl_cons]
    rw [insertSorted_ge acc (k, v) h,
      sortByIndex_enumPairs_aux rest (k + 1) (acc ++ [(k, v)]) (by
        intro q hq
        simp only [List.mem_append, List.mem_singleton] at hq
        rcases hq with hq | hq
        · have := h q hq
          omega
        · subst hq
          omega)]
    simp [enumPairs]

theorem sortByIndex_enumPairs (vs : List Val) :
    sortByIndex (enumPairs 0 vs) = enumPairs 0 vs := by
  rw [sortByIndex, sortByIndex_enumPairs_aux vs 0 [] (by simp)]
  rfl

theorem fillList_enumPairs :
    ∀ (vs : List Val) (k : Nat), fillList k (enumPairs k vs) = vs
  | [], k => rfl
  | v :: rest, k => by
    simp only [enumPairs, fillList, Nat.sub_self, List.replicate_zero, List.nil_append,
      Nat.max_self]
    rw [fillList_enumPairs rest (k + 1)]

/-- Unfolding equation for `decodeListItems` at an underscore-prefixed name. -/
theorem decodeListItems_cons95 (idxBytes ty : List Nat) (sv : SVal)
    (rest : List SElem) :
    decodeListItems (SElem.mk (95 :: idxBytes) ty sv :: rest) =
      match stoull idxBytes with
      | .ok idx => do
          let v ← decodeElement (SElem.mk (95 :: idxBytes) ty sv)
          let items ← decodeListItems rest
          .ok ((idx, v) :: items)
      | .error _ => .error (.codecErr "Invalid list index") := rfl

mutual

/-- Decoding the element the parser builds for an encoded value gives back
the value (for any element name; the decoder ignores it). -/
def decodeValRT : ∀ (v : Val) (nm : List Nat), validVal v = true →
    decodeElement (.mk nm (typeTag v) (svalOf v)) = .ok v
  | .vnull, nm, _ => by
    simp only [typeTag, svalOf, decodeElement]
    decide
  | .vbool b, nm, _ => by
    simp only [typeTag, svalOf, decodeElement]
    cases b <;> decide
  | .vint i, nm, hv => by
    have hb : -(2 ^ 63) ≤ i ∧ i ≤ 2 ^ 63 - 1 := by
      simpa [validVal] using hv
    simp only [typeTag, svalOf, decodeElement]
    rw [decodeInt_eq_stoll (unescape_no_backslash (intDec i) (by
      intro c hc
      rcases intDec_range hc with h | h <;> omega))]
    rw [stoll_intDec hb.1 hb.2]
  | .vstr s, nm, hv => by
    have hb : ∀ c ∈ s, c < 256 := by
      simpa [validVal, List.all_eq_true] using hv
    simp only [typeTag, svalOf, decodeElement, decodeStringValue,
      unescape_escape_eq s hb, bytes]
    rfl
  | .vlist vs, nm, hv => by
    have hv2 : vs.length ≤ 2 ^ 64 ∧ validItems vs = true := by
      simpa [validVal] using hv
    simp only [typeTag, svalOf, decodeElement]
    rw [if_pos trivial, decodeListRT vs 0 hv2.2 (by omega)]
    simp only [except_bind_ok, sortByIndex_enumPairs, fillList_enumPairs]
    rw [if_neg (by decide)]
  | .vobj kvs, nm, hv => by
    simp only [typeTag, svalOf, decodeElement]
    rw [if_pos trivial, decodeObjRT kvs [] hv (by simp)]
    simp [except_bind_ok]

/-- Decoding the parsed elements of an encoded object grouping appends its
entries to the accumulator (keys are distinct and fresh, so every upsert is
an append). -/
def decodeObjRT : ∀ (kvs : List (List Nat × Val)) (acc : List (List Nat × Val)),
    validObj kvs = true → (∀ k2 ∈ kvs.map Prod.fst, k2 ∉ acc.map Prod.fst) →
    decodeObjEntries (elemsOfObj kvs) acc = .ok (acc ++ kvs)
  | [], acc, _, _ => by simp [elemsOfObj, decodeObjEntries]
  | (k, v) :: rest, acc, hv, hdisj => by
    rw [validObj] at hv
    simp only [Bool.and_eq_true] at hv
    obtain ⟨⟨⟨hk, hknotin⟩, hvv⟩, hrest⟩ := hv
    simp only [elemsOfObj, decodeObjEntries]
    rw [decodeValRT v k hvv]
    simp only [except_bind_ok]
    rw [show SElem.name (.mk k (typeTag v) (svalOf v)) = k from rfl]
    rw [upsert_not_mem acc k v (hdisj k (by simp))]
    rw [decodeObjRT rest (acc ++ [(k, v)]) hrest (by
      intro k2 hk2
      simp only [List.map_append, List.map_cons, List.map_nil, List.mem_append,
        List.mem_singleton, not_or]
      refine ⟨hdisj k2 (by simp [hk2]), ?_⟩
      intro he
      subst he
      rw [decide_eq_true_eq] at hknotin
      exact hknotin hk2)]
    simp

/-- Decoding the parsed elements of an encoded list grouping yields the
index/value pairs in order. -/
def decodeListRT : ∀ (vs : List Val) (idx : Nat),
    validItems vs = true → idx + vs.length ≤ 2 ^ 64 →
    decodeListItems (elemsOfList idx vs) = .ok (enumPairs idx vs)
  | [], idx, _, _ => by simp [elemsOfList, decodeListItems, enumPairs]
  | v :: rest, idx, hv, hlen => by
    rw [validItems] at hv
    simp only [Bool.and_eq_true] at hv
    simp only [List.length_cons] at hlen
    simp only [elemsOfList]
    rw [decodeListItems_cons95, stoull_natDec (by omega : idx < 2 ^ 64)]
    simp only [decodeValRT v (95 :: natDec idx) hv.1,
      decodeListRT rest (idx + 1) hv.2 (by omega : idx + 1 + rest.length ≤ 2 ^ 64),
      enumPairs, except_bind_ok]

end

/-! ## Value round-trip (C2): fuel bounds and assembly -/

mutual

/-- The fuel bound `pfuelVal` is at most twice the payload's token count, so
the fuel `parse` supplies is always sufficient on encoder output. -/
def pfuelVal_le : ∀ v : Val, pfuelVal v ≤ 2 * (toksPayload v).length
  | .vnull => by simp [pfuelVal, toksPayload]
  | .vbool b => by simp [pfuelVal, toksPayload]
  | .vint i => by simp [pfuelVal, toksPayload]
  | .vstr s => by simp [pfuelVal, toksPayload]
  | .vlist vs => by
    have h := pfuelItems_le vs 0
    simp only [pfuelVal, toksPayload, List.length_cons, List.length_append]
    omega
  | .vobj kvs => by
    have h := pfuelEntries_le kvs
    simp only [pfuelVal, toksPayload, List.length_cons, List.length_append]
    omega

/-- `pfuelEntries` is at most twice the entries' token count. -/
def pfuelEntries_le : ∀ kvs : List (List Nat × Val),
    pfuelEntries kvs ≤ 2 * (toksObjEntries kvs).length
  | [] => by simp [pfuelEntries, toksObjEntries]
  | [(k, v)] => by
    have h := pfuelVal_le v
    simp only [pfuelEntries, toksObjEntries, List.length_cons]
    omega
  | (k, v) :: (p :: rest) => by
    have h1 := pfuelVal_le v
    have h2 := pfuelEntries_le (p :: rest)
    simp only [pfuelEntries, toksObjEntries, List.length_cons, List.length_append]
    omega

/-- `pfuelItems` is at most twice the items' token count. -/
def pfuelItems_le : ∀ (vs : List Val) (idx : Nat),
    pfuelItems idx vs ≤ 2 * (toksListItems idx vs).length
  | [], idx => by simp [pfuelItems, toksListItems]
  | [v], idx => by
    have h := pfuelVal_le v
    simp only [pfuelItems, toksListItems, List.length_cons]
    omega
  | v :: (w :: rest), idx => by
    have h1 := pfuelVal_le v
    have h2 := pfuelItems_le (w :: rest) (idx + 1)
    simp only [pfuelItems, toksListItems, List.length_cons, List.length_append]
    omega

end

/-- Lexing a full encoded object: the outer braces become `lbrace`/`rbrace`
around the entry tokens. -/
theorem lex_encoded_obj (kvs : List (List Nat × Val)) (hv : validObj kvs = true)
    (hne : kvs ≠ []) :
    lex (123 :: encObjEntries kvs ++ [125]) =
      .ok (.lbrace :: toksObjEntries kvs ++ [.rbrace]) := by
  show lexRun .norm _ = _
  simp only [List.cons_append]
  rw [lexNorm_lbrace, lexObjEntries kvs [125] hv hne, lexNorm_rbrace]
  simp [lexRun, consTok, prependToks]

/-- Parsing the token stream of a non-empty encoded object grouping. -/
theorem parseGrouping_encoded (kvs : List (List Nat × Val)) (fuel : Nat)
    (rest : List Tok) (hne : kvs ≠ [])
    (hf : pfuelEntries kvs + 1 ≤ fuel) :
    parseGrouping fuel (.lbrace :: toksObjEntries kvs ++ .rbrace :: rest) =
      .ok (elemsOfObj kvs, rest) := by
  match fuel, hf with
  | f + 1, hf =>
    cases kvs with
    | nil => exact absurd rfl hne
    | cons e0 erest =>
      obtain ⟨k0, v0⟩ := e0
      obtain ⟨ts, hts⟩ := toksObjEntries_head k0 v0 erest
      simp only [List.cons_append, parseGrouping]
      rw [hts]
      simp only [List.cons_append]
      rw [← List.cons_append, ← hts,
        parseEntriesObj ((k0, v0) :: erest) f rest (by simp) (by omega)]

/-- **C2 counterexample.** The key `"a b"` is legal in the JSON data model,
but `dumps` emits it verbatim and the space splits it into two NAME tokens,
so `loads` fails on the encoder's own output: the dumps/loads round-trip
does not hold for arbitrary objects. -/
theorem key_with_space_breaks_roundtrip :
    (dumps (.vobj [(bytes "a b", .vint 1)]) >>= loads) =
        .error (.parseErr "Expected colon") ∧
    (dumps (.vobj [(bytes "a b", .vint 1)]) >>= loads) ≠
        .ok (.vobj [(bytes "a b", .vint 1)]) := by
  constructor
  · decide
  · decide

/-- **C2 (amended).** For a top-level object whose keys (at every level) are
valid SISL names and pairwise distinct within each object, whose integers
fit in int64, whose strings are byte strings, and whose lists have at most
`2 ^ 64` items (`validObj`), `loads` applied to the output of `dumps`
returns the original value. -/
theorem value_roundtrip (kvs : List (List Nat × Val))
    (h : validObj kvs = true) :
    (dumps (.vobj kvs) >>= loads) = .ok (.vobj kvs) := by
  cases kvs with
  | nil => decide
  | cons e0 erest =>
    simp only [dumps, except_bind_ok, loads, parse]
    rw [lex_encoded_obj (e0 :: erest) h (by simp)]
    simp only [except_bind_ok]
    rw [parseGrouping_encoded (e0 :: erest) _ [] (by simp) (by
      have hle := pfuelEntries_le (e0 :: erest)
      simp only [List.length_append, List.length_cons, List.length_nil]
      omega)]
    simp only [except_bind_ok, sislToJson]
    rw [decodeObjRT (e0 :: erest) [] h (by simp)]
    simp [except_bind_ok]

/-- **C2 witness.** The round-trip theorem applied at `{a: !int 5}`. -/
theorem value_roundtrip_witness :
    validObj [(bytes "a", .vint 5)] = true ∧
    (dumps (.vobj [(bytes "a", .vint 5)]) >>= loads) =
      .ok (.vobj [(bytes "a", .vint 5)]) :=
  ⟨by decide, value_roundtrip [(bytes "a", .vint 5)] (by decide)⟩

end Sisl
